import Mathlib

/-!
Verification of the convention-markdown compiler CLI (`src/main.rs`) against its
natural-language specification.

The development shallowly embeds the program:

* file contents and path components are `List Char` (Rust `String` / `OsStr`);
* the filesystem is an association list from absolute paths (lists of
  components) to nodes (regular file, config file, directory, symlink);
* `std::fs` primitives (`read_to_string`, `write`, `create_dir_all`,
  `remove_file`, `remove_dir_all`, `canonicalize`, `symlink`, `read_dir`,
  `exists`, `is_file`, `is_dir`, `is_symlink`) are modelled as explicit
  state-passing functions over that association list, with the documented
  contracts of the Rust standard library (existence checks follow symlinks,
  `remove_file` does not, symlink targets created by this program are stored
  canonical, so a one-step symlink resolution suffices for the states the
  program reaches);
* YAML (de)serialization of the config file is an external collaborator and is
  modelled by a dedicated `configFile` node constructor;
* interactive prompts are external collaborators and are modelled by an input
  record consumed by explicit branching, mirroring the source's control flow.

Fallible operations return `Except Err`.  All definitions are executable.
-/

deriving instance DecidableEq for Except

namespace ConvMd

/-! ## Characters and strings (`List Char`) -/

/-- Code points with the Unicode `White_Space` property, the set used by
Rust's `char::is_whitespace` (and hence by `str::trim_end`). -/
def wsCodes : List Nat :=
  [0x09, 0x0A, 0x0B, 0x0C, 0x0D, 0x20, 0x85, 0xA0, 0x1680,
   0x2000, 0x2001, 0x2002, 0x2003, 0x2004, 0x2005, 0x2006, 0x2007,
   0x2008, 0x2009, 0x200A, 0x2028, 0x2029, 0x202F, 0x205F, 0x3000]

/-- Rust `char::is_whitespace`. -/
def isRustWs (c : Char) : Bool := wsCodes.contains c.toNat

/-- Rust `str::trim_end` on a list of characters. -/
def trimEnd (s : List Char) : List Char := (s.reverse.dropWhile isRustWs).reverse

/-- Rust `str::ends_with`: `suf` is a suffix of `s`. -/
def endsWithL (s suf : List Char) : Bool := List.isSuffixOf suf s

/-- The separator appended after one file's content by
`combine_convention_files` (`src/main.rs:463-470`): nothing if the content
already ends with two newlines, one newline if it ends with exactly one,
two newlines otherwise. -/
def sepFor (content : List Char) : List Char :=
  if endsWithL content ['\n', '\n'] then []
  else if endsWithL content ['\n'] then ['\n']
  else ['\n', '\n']

/-- Rust `str::replace(".md", "")`: remove every (leftmost, non-overlapping)
occurrence of the substring `".md"`. -/
def removeMd : List Char → List Char
  | '.' :: 'm' :: 'd' :: rest => removeMd rest
  | c :: rest => c :: removeMd rest
  | [] => []

/-- Whether the substring `".md"` occurs somewhere in `s`. -/
def containsMd : List Char → Bool
  | '.' :: 'm' :: 'd' :: _ => true
  | _ :: rest => containsMd rest
  | [] => false

/-- Rust `Vec::join(sep)` for strings. -/
def joinSep (sep : List Char) : List (List Char) → List Char
  | [] => []
  | [x] => x
  | x :: y :: t => x ++ sep ++ joinSep sep (y :: t)

/-- Whether `pat` occurs as a contiguous segment (substring) of `s`. -/
def containsSeg (s pat : List Char) : Bool :=
  match s with
  | [] => pat.isEmpty
  | _ :: t => pat.isPrefixOf s || containsSeg t pat

/-! ## Specification-side definitions for the combination step

These two definitions are translated from the specification's words (claims C1
and C10 are refinement claims comparing them with the source-translated
`sepFor`/`combine_convention_files`): "after a file whose content ends in
exactly one newline, one newline is appended; after one ending in no newline,
two are appended; after one already ending in two newlines, nothing is
appended", and the combined text is the concatenation with all trailing
whitespace trimmed. -/

/-- Separator after one document, following the specification's case split. -/
def specSep (c : List Char) : List Char :=
  if endsWithL c ['\n'] && !endsWithL c ['\n', '\n'] then ['\n']
  else if !endsWithL c ['\n'] then ['\n', '\n']
  else []

/-- The combined text as described by the specification: each content followed
by its separator, concatenated in order, with trailing whitespace trimmed. -/
def specCombinedText (cs : List (List Char)) : List Char :=
  trimEnd (List.flatten (cs.map (fun c => c ++ specSep c)))

/-- Specification-side filename derivation for claim C6: strip the `.md`
extension (only a final `".md"` suffix) from each base name. -/
def specStripMd (n : List Char) : List Char :=
  if endsWithL n ".md".toList then n.take (n.length - 3) else n

/-! ## Basic lemmas about the string utilities -/

theorem sepFor_eq_specSep (c : List Char) : sepFor c = specSep c := by
  unfold sepFor specSep
  by_cases h2 : endsWithL c ['\n', '\n']
  · have h1 : endsWithL c ['\n'] = true := by
      unfold endsWithL at h2 ⊢
      rcases (List.isSuffixOf_iff_suffix.mp h2) with ⟨t, ht⟩
      exact List.isSuffixOf_iff_suffix.mpr ⟨t ++ ['\n'], by simpa using ht⟩
    simp [h2, h1]
  · by_cases h1 : endsWithL c ['\n'] <;> simp [h1, h2]

theorem trimEnd_nil : trimEnd [] = [] := rfl

/-- `dropWhile` on an append: if the first part is not entirely dropped, the
second part survives untouched. -/
theorem dropWhile_append_of_ne_nil {p : Char → Bool} {a b : List Char}
    (h : a.dropWhile p ≠ []) : (a ++ b).dropWhile p = a.dropWhile p ++ b := by
  induction a with
  | nil => simp at h
  | cons x t ih =>
    by_cases hx : p x
    · simp only [List.dropWhile_cons, hx] at h ⊢
      simpa [hx] using ih h
    · simp [List.dropWhile_cons, hx]

/-- Trimming an append whose right part does not vanish. -/
theorem trimEnd_append_of_ne_nil {a b : List Char} (h : trimEnd b ≠ []) :
    trimEnd (a ++ b) = a ++ trimEnd b := by
  unfold trimEnd at *
  have hb : b.reverse.dropWhile isRustWs ≠ [] := by
    intro hc; exact h (by simp [hc])
  rw [List.reverse_append, dropWhile_append_of_ne_nil hb, List.reverse_append]
  simp

/-- If every character of `b` is whitespace, trimming `a ++ b` is trimming `a`. -/
theorem trimEnd_append_of_all_ws {a b : List Char}
    (h : ∀ c ∈ b, isRustWs c = true) : trimEnd (a ++ b) = trimEnd a := by
  unfold trimEnd
  rw [List.reverse_append]
  congr 1
  induction b using List.reverseRecOn with
  | nil => simp
  | append_singleton xs x ih =>
    have hx : isRustWs x := h x (by simp)
    have hxs : ∀ c ∈ xs, isRustWs c = true := fun c hc => h c (by simp [hc])
    simp only [List.reverse_append, List.reverse_cons, List.reverse_nil,
      List.nil_append, List.cons_append, List.dropWhile_cons, hx]
    exact ih hxs

theorem sepFor_all_ws (x : List Char) : ∀ c ∈ sepFor x, isRustWs c = true := by
  intro c hc
  have hcn : c = '\n' := by
    unfold sepFor at hc
    split at hc <;> (try split at hc) <;> simp_all
  rw [hcn]
  decide

/-! ## Paths

A `PComp` is one Rust `Path` component (`RootDir`, `CurDir`, `ParentDir`,
`Normal`); an `RPath` is a path as a value of the program (a `PathBuf`);
an `APath` is a fully resolved absolute path, a list of component names
below the filesystem root. -/

inductive PComp where
  | root
  | cur
  | parent
  | normal (c : List Char)
  deriving DecidableEq, Repr

abbrev RPath := List PComp

abbrev APath := List (List Char)

/-- Split a string at every `'/'`. -/
def splitSlash : List Char → List (List Char)
  | [] => [[]]
  | c :: t =>
    if c = '/' then [] :: splitSlash t
    else
      match splitSlash t with
      | [] => [[c]]
      | p :: ps => (c :: p) :: ps

/-- One nonempty part of a path string as a component. -/
def compOf (p : List Char) : PComp :=
  if p = ['.'] then .cur else if p = ['.', '.'] then .parent else .normal p

/-- `PathBuf::from(s)` viewed through `Path::components()`: leading `'/'`
becomes `RootDir`, empty parts and non-leading `"."` parts disappear,
`".."` is `ParentDir`. -/
def strToRPath (s : List Char) : RPath :=
  let raw := ((splitSlash s).filter (fun p => p ≠ [])).map compOf
  if s.head? = some '/' then .root :: raw.filter (fun c => c ≠ .cur)
  else
    match raw with
    | .cur :: t => .cur :: t.filter (fun c => c ≠ .cur)
    | l => l.filter (fun c => c ≠ .cur)

/-- Resolve a program path against an absolute path (the working directory):
`RootDir` restarts at the root, `CurDir` is skipped, `ParentDir` pops one
component, a normal component is appended. -/
def resolveFrom (base : APath) : RPath → APath
  | [] => base
  | .root :: t => resolveFrom [] t
  | .cur :: t => resolveFrom base t
  | .parent :: t => resolveFrom base.dropLast t
  | .normal n :: t => resolveFrom (base ++ [n]) t

/-- `p` is a prefix of `q` (as lists of components). -/
def pre (p q : APath) : Prop := ∃ t, p ++ t = q

instance : ∀ p q : APath, Decidable (pre p q) := fun p q =>
  decidable_of_iff (p.isPrefixOf q = true) (by
    rw [List.isPrefixOf_iff_prefix]
    exact ⟨fun ⟨t, ht⟩ => ⟨t, ht⟩, fun ⟨t, ht⟩ => ⟨t, ht⟩⟩)

/-! ## Filesystem model -/

/-- Configuration (`Config` / `FuzzySearchConfig` in the source, flattened;
only `search_root` is ever read by the program). -/
structure Config where
  search_root : List Char
  show_hidden : Bool
  max_depth : Nat
  prompt : List Char
  deriving DecidableEq, Repr

/-- `Config::default()` from the source. -/
def defaultConfig : Config :=
  { search_root := "/Users/dave/Code".toList
    show_hidden := false
    max_depth := 2
    prompt := "Select directory > ".toList }

/-- A filesystem node.  `configFile` models a file holding the YAML
serialization of a `Config` (YAML mechanics are an external collaborator,
so serialization is modelled as the identity on `Config`). -/
inductive Node where
  | file (content : List Char)
  | configFile (c : Config)
  | dir
  | symlink (target : APath)
  deriving DecidableEq, Repr

/-- The filesystem is an association list from absolute paths to nodes,
together with the working directory (an absolute path).  The root directory
exists implicitly and has no entry. -/
structure FSState where
  fs : List (APath × Node)
  cwd : APath
  deriving DecidableEq, Repr

/-- First binding of an absolute path in the association list. -/
def lookupFS : List (APath × Node) → APath → Option Node
  | [], _ => none
  | e :: t, p => if e.1 = p then some e.2 else lookupFS t p

/-- Remove every binding of `p`. -/
def eraseKey : List (APath × Node) → APath → List (APath × Node)
  | [], _ => []
  | e :: t, p => if e.1 = p then eraseKey t p else e :: eraseKey t p

/-- Bind `p` to `n`, dropping previous bindings. -/
def setKey (fs : List (APath × Node)) (p : APath) (n : Node) : List (APath × Node) :=
  (p, n) :: eraseKey fs p

/-- Remove every binding at or below `p` (`remove_dir_all`). -/
def eraseTree : List (APath × Node) → APath → List (APath × Node)
  | [], _ => []
  | e :: t, p => if pre p e.1 then eraseTree t p else e :: eraseTree t p

theorem lookup_eraseKey (fs : List (APath × Node)) (p q : APath) :
    lookupFS (eraseKey fs p) q = if q = p then none else lookupFS fs q := by
  induction fs with
  | nil => by_cases hq : q = p <;> simp [eraseKey, lookupFS, hq]
  | cons e t ih =>
    simp only [eraseKey]
    by_cases he : e.1 = p
    · rw [if_pos he, ih]
      by_cases hq : q = p
      · simp [hq]
      · rw [if_neg hq, if_neg hq, lookupFS, if_neg (by rw [he]; exact fun h => hq h.symm)]
    · rw [if_neg he]
      show lookupFS (e :: eraseKey t p) q = _
      by_cases heq : e.1 = q
      · have hq : ¬ q = p := fun h => he (heq.trans h)
        simp [lookupFS, heq, hq]
      · simp [lookupFS, heq, ih]

theorem lookup_setKey (fs : List (APath × Node)) (p : APath) (n : Node) (q : APath) :
    lookupFS (setKey fs p n) q = if q = p then some n else lookupFS fs q := by
  by_cases hq : q = p
  · simp [setKey, lookupFS, hq]
  · rw [if_neg hq]
    simp only [setKey, lookupFS]
    rw [if_neg (fun h => hq h.symm), lookup_eraseKey, if_neg hq]

theorem lookup_eraseTree (fs : List (APath × Node)) (p q : APath) :
    lookupFS (eraseTree fs p) q = if pre p q then none else lookupFS fs q := by
  induction fs with
  | nil => by_cases hq : pre p q <;> simp [eraseTree, lookupFS, hq]
  | cons e t ih =>
    simp only [eraseTree]
    by_cases he : pre p e.1
    · rw [if_pos he, ih]
      by_cases hq : pre p q
      · simp [hq]
      · rw [if_neg hq, if_neg hq, lookupFS, if_neg (fun h => hq (by rw [← h]; exact he))]
    · rw [if_neg he]
      show lookupFS (e :: eraseTree t p) q = _
      by_cases heq : e.1 = q
      · have hq : ¬ pre p q := fun h => he (by rw [heq]; exact h)
        simp [lookupFS, heq, hq]
      · simp [lookupFS, heq, ih]

/-! ## Modelled `std::fs` primitives -/

inductive Err where
  | conventionsMissing
  | readDirFailed
  | readFailed
  | writeFailed
  | createDirFailed
  | removeFailed
  | symlinkFailed
  | canonFailed
  | configUnparseable
  deriving DecidableEq, Repr

/-- The node a program path points at (no symlink following). -/
def nodeAt (st : FSState) (r : RPath) : Option Node :=
  lookupFS st.fs (resolveFrom st.cwd r)

/-- `Path::is_symlink`. -/
def isSymlinkAt (st : FSState) (r : RPath) : Bool :=
  match nodeAt st r with
  | some (.symlink _) => true
  | _ => false

/-- `Path::exists`: follows symlinks, so a dangling symlink does not exist. -/
def existsAt (st : FSState) (r : RPath) : Bool :=
  match nodeAt st r with
  | none => false
  | some (.symlink t) => (lookupFS st.fs t).isSome
  | some _ => true

/-- `Path::is_file`: follows symlinks. -/
def isFileAt (st : FSState) (r : RPath) : Bool :=
  match nodeAt st r with
  | some (.file _) => true
  | some (.configFile _) => true
  | some (.symlink t) =>
    match lookupFS st.fs t with
    | some (.file _) => true
    | some (.configFile _) => true
    | _ => false
  | _ => false

/-- `Path::is_dir`: follows symlinks. -/
def isDirAt (st : FSState) (r : RPath) : Bool :=
  match nodeAt st r with
  | some .dir => true
  | some (.symlink t) => lookupFS st.fs t = some .dir
  | _ => false

/-- `fs::read_to_string`: follows a symlink to a regular file. -/
def readToStringAt (st : FSState) (r : RPath) : Except Err (List Char) :=
  match nodeAt st r with
  | some (.file c) => .ok c
  | some (.symlink t) =>
    match lookupFS st.fs t with
    | some (.file c) => .ok c
    | _ => .error .readFailed
  | _ => .error .readFailed

/-- `fs::remove_file`: removes a file, config file or symlink (the link, not
its target); fails on a directory or a missing path. -/
def removeFileAt (st : FSState) (r : RPath) : Except Err FSState :=
  match nodeAt st r with
  | some (.file _) | some (.configFile _) | some (.symlink _) =>
    .ok { st with fs := eraseKey st.fs (resolveFrom st.cwd r) }
  | _ => .error .removeFailed

/-- `fs::remove_dir_all`: removes a directory and everything below it. -/
def removeDirAllAt (st : FSState) (r : RPath) : Except Err FSState :=
  match nodeAt st r with
  | some .dir => .ok { st with fs := eraseTree st.fs (resolveFrom st.cwd r) }
  | _ => .error .removeFailed

/-- Whether the parent of an absolute path is a directory (the root is a
directory implicitly). -/
def parentIsDir (fs : List (APath × Node)) (p : APath) : Bool :=
  p.dropLast = [] || lookupFS fs p.dropLast = some .dir

/-- `fs::write`: create or truncate a regular file (writing through a symlink
to an existing regular file); fails on a directory or a missing parent. -/
def writeFileAt (st : FSState) (r : RPath) (content : List Char) : Except Err FSState :=
  match lookupFS st.fs (resolveFrom st.cwd r) with
  | some (.symlink t) =>
    match lookupFS st.fs t with
    | some (.file _) | some (.configFile _) =>
      .ok { st with fs := setKey st.fs t (.file content) }
    | _ => .error .writeFailed
  | some .dir => .error .writeFailed
  | _ =>
    if parentIsDir st.fs (resolveFrom st.cwd r) then
      .ok { st with fs := setKey st.fs (resolveFrom st.cwd r) (.file content) }
    else .error .writeFailed

/-- The nonempty prefixes of an absolute path, shortest first. -/
def prefixesOf (p : APath) : List APath :=
  (List.range p.length).map (fun i => p.take (i + 1))

/-- One step of `create_dir_all`: ensure a single path is a directory. -/
def createDirStep (st : FSState) (p : APath) : Except Err FSState :=
  match lookupFS st.fs p with
  | none => .ok { st with fs := setKey st.fs p .dir }
  | some .dir => .ok st
  | some _ => .error .createDirFailed

/-- `fs::create_dir_all`: create every missing component of the path as a
directory. -/
def createDirAllAt (st : FSState) (r : RPath) : Except Err FSState :=
  (prefixesOf (resolveFrom st.cwd r)).foldlM createDirStep st

/-- `fs::canonicalize`: the path must exist; a symlink resolves to its stored
target (which this program always stores canonical), anything else to its
resolved absolute path. -/
def canonicalizeAt (st : FSState) (r : RPath) : Except Err APath :=
  match lookupFS st.fs (resolveFrom st.cwd r) with
  | none => .error .canonFailed
  | some (.symlink t) => if (lookupFS st.fs t).isSome then .ok t else .error .canonFailed
  | some _ => .ok (resolveFrom st.cwd r)

/-- `std::os::unix::fs::symlink original link`: the link path must be free and
its parent must be a directory; the stored target is `original`. -/
def symlinkAt (st : FSState) (original : APath) (linkR : RPath) : Except Err FSState :=
  match lookupFS st.fs (resolveFrom st.cwd linkR) with
  | some _ => .error .symlinkFailed
  | none =>
    if resolveFrom st.cwd linkR ≠ [] && parentIsDir st.fs (resolveFrom st.cwd linkR) then
      .ok { st with fs := setKey st.fs (resolveFrom st.cwd linkR) (.symlink original) }
    else .error .symlinkFailed

/-- The names of the entries directly inside an absolute directory path, in
association-list order (`read_dir` has no specified order). -/
def childNames (fs : List (APath × Node)) (p : APath) : List (List Char) :=
  fs.filterMap (fun e =>
    match e.1.getLast? with
    | some n => if e.1.dropLast = p then some n else none
    | none => none)

/-- `fs::read_dir`, returning entry names: follows a symlink to a directory. -/
def readDirNames (st : FSState) (r : RPath) : Except Err (List (List Char)) :=
  match nodeAt st r with
  | some .dir => .ok (childNames st.fs (resolveFrom st.cwd r))
  | some (.symlink t) =>
    match lookupFS st.fs t with
    | some .dir => .ok (childNames st.fs t)
    | _ => .error .readDirFailed
  | _ => .error .readDirFailed

/-! ## Fixed names appearing in the source -/

def ccName : List Char := "combined_conventions".toList
def conventionsName : List Char := "conventions".toList
def agentsLower : List Char := "agents".toList
def agentsUpper : List Char := "AGENTS".toList
def configYamlName : List Char := "config.yaml".toList

/-- The three fixed symlink names (`src/main.rs:500`). -/
def symlinkNames : List (List Char) :=
  ["CONVENTIONS.md".toList, "AGENTS.md".toList, "CLAUDE.md".toList]

/-! ## Convention file discovery (`find_convention_files`) -/

/-- `ConventionFile` from the source: a base name and the path
`conventions/<name>`. -/
structure ConventionFile where
  name : List Char
  path : RPath
  deriving DecidableEq, Repr

/-- Rust `Path::extension()` on a file name: `none` if there is no `'.'`, or
if the name begins with `'.'` and has no other `'.'`; otherwise the portion
after the final `'.'`. -/
def extFromName (name : List Char) : Option (List Char) :=
  if ¬ ('.' ∈ name) then none
  else if name.head? = some '.' ∧ ¬ ('.' ∈ name.tail) then none
  else some ((name.reverse.takeWhile (fun c => c ≠ '.')).reverse)

/-- Byte-lexicographic `≤` on strings (Rust `str::cmp`; UTF-8 byte order
agrees with code point order). -/
def strLe : List Char → List Char → Bool
  | [], _ => true
  | _ :: _, [] => false
  | a :: as, b :: bs => if a < b then true else if a = b then strLe as bs else false

/-- Byte-lexicographic `<` on strings. -/
def strLt : List Char → List Char → Bool
  | [], [] => false
  | [], _ :: _ => true
  | _ :: _, [] => false
  | a :: as, b :: bs => if a < b then true else if a = b then strLt as bs else false

theorem strLe_total : ∀ x y : List Char, strLe x y = true ∨ strLe y x = true
  | [], _ => Or.inl rfl
  | _ :: _, [] => Or.inr rfl
  | a :: as, b :: bs => by
    by_cases hab : a < b
    · left; simp [strLe, hab]
    · by_cases heq : a = b
      · subst heq
        rcases strLe_total as bs with h | h
        · left; simp [strLe, h]
        · right; simp [strLe, h]
      · have hba : b < a := lt_of_le_of_ne (not_lt.mp hab) (fun h => heq h.symm)
        right; simp [strLe, hba]

theorem strLe_trans :
    ∀ x y z : List Char, strLe x y = true → strLe y z = true → strLe x z = true
  | [], _, _, _, _ => rfl
  | _ :: _, [], _, h, _ => by simp [strLe] at h
  | _ :: _, _ :: _, [], _, h => by simp [strLe] at h
  | a :: as, b :: bs, c :: cs, h1, h2 => by
    by_cases hab : a < b
    · by_cases hbc : b < c
      · simp [strLe, lt_trans hab hbc]
      · by_cases hbc2 : b = c
        · subst hbc2; simp [strLe, hab]
        · simp [strLe, hbc, hbc2] at h2
    · by_cases hab2 : a = b
      · subst hab2
        simp only [strLe, if_neg hab, if_pos rfl] at h1
        by_cases hac : a < c
        · simp [strLe, hac]
        · by_cases hac2 : a = c
          · subst hac2
            simp only [strLe, if_neg hac, if_pos rfl] at h2 ⊢
            exact strLe_trans as bs cs h1 h2
          · simp [strLe, hac, hac2] at h2
      · simp [strLe, hab, hab2] at h1

/-- The comparison `a.name.cmp(&b.name)` used by `sort_by` as a `≤` relation. -/
def cfLe (f g : ConventionFile) : Prop := strLe f.name g.name = true

instance : DecidableRel cfLe := fun f g =>
  inferInstanceAs (Decidable (strLe f.name g.name = true))

instance : IsTotal ConventionFile cfLe := ⟨fun f g => strLe_total f.name g.name⟩

instance : IsTrans ConventionFile cfLe :=
  ⟨fun _ _ _ h1 h2 => strLe_trans _ _ _ h1 h2⟩

/-- `find_convention_files` (`src/main.rs:135-159`): error if `conventions/`
is absent, otherwise the `.md` regular files (file test follows symlinks,
like `Path::is_file`) directly inside, sorted by name. -/
def find_convention_files (st : FSState) : Except Err (List ConventionFile) :=
  if ¬ existsAt st [.normal conventionsName] then .error .conventionsMissing
  else do
    let names ← readDirNames st [.normal conventionsName]
    let files := (names.filter (fun n =>
        isFileAt st [.normal conventionsName, .normal n] &&
        decide (extFromName n = some "md".toList))).map
      (fun n => ConventionFile.mk n [.normal conventionsName, .normal n])
    pure (List.insertionSort cfLe files)

/-! ## Combination (`combine_convention_files`) -/

/-- One iteration of the loop in `combine_convention_files`
(`src/main.rs:455-471`): push the name with `".md"` removed, read the file,
append its content and the separator newlines. -/
def combineStep (st : FSState) (acc : List (List Char) × List Char) (f : ConventionFile) :
    Except Err (List (List Char) × List Char) := do
  let content ← readToStringAt st f.path
  pure (acc.1 ++ [removeMd f.name], acc.2 ++ content ++ sepFor content)

/-- `combine_convention_files` (`src/main.rs:451-479`): returns the combined
content (trailing whitespace trimmed) and the derived filename. -/
def combine_convention_files (st : FSState) (files : List ConventionFile) :
    Except Err (List Char × List Char) := do
  let acc ← files.foldlM (combineStep st) ([], [])
  pure (trimEnd acc.2, joinSep ['_'] acc.1 ++ ".md".toList)

/-- The derived output filename, which depends only on the names. -/
def combinedFilenameOf (files : List ConventionFile) : List Char :=
  joinSep ['_'] (files.map (fun f => removeMd f.name)) ++ ".md".toList

/-! ## Publication (`compile_files`) -/

/-- One iteration of the symlink loop (`src/main.rs:504-524`): remove any
pre-existing file or symlink at `target_dir/<n>`, canonicalize the combined
file's path, create the symlink. -/
def stepSymlinkName (combinedRel : RPath) (tdR : RPath) (st : FSState) (n : List Char) :
    Except Err FSState :=
  (if existsAt st (tdR ++ [.normal n]) || isSymlinkAt st (tdR ++ [.normal n])
   then removeFileAt st (tdR ++ [.normal n]) else pure st) >>= fun st1 =>
  canonicalizeAt st1 combinedRel >>= fun ab =>
  symlinkAt st1 ab (tdR ++ [.normal n])

/-- The agents-folder block of `compile_files` (`src/main.rs:526-554`):
if `conventions/agents` exists, remove anything at `target_dir/AGENTS`
(a real directory with `remove_dir_all`, otherwise `remove_file`), then
symlink `AGENTS` to the canonical path of `conventions/agents`. -/
def agentsStep (tdR : RPath) (st : FSState) : Except Err FSState :=
  if existsAt st [.normal conventionsName, .normal agentsLower] then
    (if existsAt st (tdR ++ [.normal agentsUpper]) ||
        isSymlinkAt st (tdR ++ [.normal agentsUpper]) then
      (if isDirAt st (tdR ++ [.normal agentsUpper]) &&
          !isSymlinkAt st (tdR ++ [.normal agentsUpper])
       then removeDirAllAt st (tdR ++ [.normal agentsUpper])
       else removeFileAt st (tdR ++ [.normal agentsUpper]))
     else pure st) >>= fun st4 =>
    canonicalizeAt st4 [.normal conventionsName, .normal agentsLower] >>= fun ab =>
    symlinkAt st4 ab (tdR ++ [.normal agentsUpper])
  else pure st

/-- `compile_files` (`src/main.rs:481-560`). -/
def compile_files (st : FSState) (selected : List ConventionFile) (tdR : RPath) :
    Except Err FSState :=
  combine_convention_files st selected >>= fun p =>
  createDirAllAt st [.normal ccName] >>= fun st1 =>
  writeFileAt st1 [.normal ccName, .normal p.2] p.1 >>= fun st2 =>
  symlinkNames.foldlM (stepSymlinkName [.normal ccName, .normal p.2] tdR) st2 >>= fun st3 =>
  agentsStep tdR st3

/-! ## Config loading (`load_or_create_config`) -/

def configPathR : RPath := [.normal configYamlName]

/-- `fs::write` of the YAML serialization of a config (same contract as
`writeFileAt`, but the stored node is a `configFile`). -/
def writeConfigAt (st : FSState) (r : RPath) (c : Config) : Except Err FSState :=
  match lookupFS st.fs (resolveFrom st.cwd r) with
  | some (.symlink t) =>
    match lookupFS st.fs t with
    | some (.file _) | some (.configFile _) =>
      .ok { st with fs := setKey st.fs t (.configFile c) }
    | _ => .error .writeFailed
  | some .dir => .error .writeFailed
  | _ =>
    if parentIsDir st.fs (resolveFrom st.cwd r) then
      .ok { st with fs := setKey st.fs (resolveFrom st.cwd r) (.configFile c) }
    else .error .writeFailed

/-- `load_or_create_config` (`src/main.rs:178-202`): parse `config.yaml` if it
exists, otherwise write the default config and return it. -/
def load_or_create_config (st : FSState) : Except Err (Config × FSState) :=
  match nodeAt st configPathR with
  | some (.configFile c) => .ok (c, st)
  | some (.file _) => .error .configUnparseable
  | some .dir => .error .readFailed
  | some (.symlink t) =>
    match lookupFS st.fs t with
    | some (.configFile c) => .ok (c, st)
    | some (.file _) => .error .configUnparseable
    | some _ => .error .readFailed
    | none => do
      let st2 ← writeConfigAt st configPathR defaultConfig
      .ok (defaultConfig, st2)
  | none => do
    let st2 ← writeConfigAt st configPathR defaultConfig
    .ok (defaultConfig, st2)

/-! ## Candidate directory discovery (`find_candidate_directories`) -/

/-- `if let Ok(entries) = fs::read_dir(..)`: errors are swallowed, yielding
no entries. -/
def readDirList (st : FSState) (r : RPath) : List (List Char) :=
  match readDirNames st r with
  | .ok l => l
  | .error _ => []

def pcompRank : PComp → Nat
  | .root => 0
  | .cur => 1
  | .parent => 2
  | .normal _ => 3

/-- `<` on path components (Rust's derived `Ord` on `Component`). -/
def pcompLt (a b : PComp) : Bool :=
  match a, b with
  | .normal x, .normal y => strLt x y
  | _, _ => decide (pcompRank a < pcompRank b)

/-- `<` on paths (componentwise lexicographic, Rust `Path::cmp`). -/
def rpathLt : RPath → RPath → Bool
  | [], [] => false
  | [], _ :: _ => true
  | _ :: _, [] => false
  | a :: as, b :: bs => if pcompLt a b then true else if a = b then rpathLt as bs else false

/-- The `≤` relation used to model `Vec::sort`. -/
def rpathLe (a b : RPath) : Prop := rpathLt b a = false

instance : DecidableRel rpathLe := fun a b =>
  inferInstanceAs (Decidable (rpathLt b a = false))

/-- Tail of `dedupAdj`: drop elements equal to the previous kept one. -/
def dedupAdjFrom (prev : RPath) : List RPath → List RPath
  | [] => []
  | b :: t => if prev = b then dedupAdjFrom prev t else b :: dedupAdjFrom b t

/-- Rust `Vec::dedup`: remove adjacent duplicates, keeping the first. -/
def dedupAdj : List RPath → List RPath
  | [] => []
  | a :: t => a :: dedupAdjFrom a t

/-- `find_candidate_directories` (`src/main.rs:204-256`): returns the
deduplicated sorted candidate list, the warning messages surfaced (here the
search-root string of the missing-root warning), and the state (the config
file may have been created). -/
def find_candidate_directories (st : FSState) :
    Except Err (List RPath × List (List Char) × FSState) := do
  let pair ← load_or_create_config st
  let config := pair.1
  let st1 := pair.2
  let searchRoot : RPath := strToRPath config.search_root
  let base :=
    if ¬ existsAt st1 searchRoot then
      ([[PComp.cur]], [config.search_root])
    else
      let kids := readDirList st1 searchRoot
      let childDirs := (kids.filter (fun n => isDirAt st1 (searchRoot ++ [.normal n]))).map
        (fun n => searchRoot ++ [.normal n])
      let grandkids := List.flatten (kids.map (fun n =>
        let child := searchRoot ++ [.normal n]
        if isDirAt st1 child then
          ((readDirList st1 child).take 10).filterMap (fun m =>
            if isDirAt st1 (child ++ [.normal m]) then some (child ++ [.normal m]) else none)
        else []))
      ([searchRoot] ++ childDirs ++ grandkids, ([] : List (List Char)))
  let dirs2 := base.1 ++ [[PComp.cur], [PComp.parent]]
  .ok (dedupAdj (List.insertionSort rpathLe dirs2), base.2, st1)

/-! ## Target directory selection (`get_target_directory`)

The fuzzy-finder widget is an external collaborator; its outcome is an input:
abort (with the manually typed fallback path), no selection, the custom-path
item (with the typed path), or a selected item's display text. -/

inductive SkimRes where
  | abort (typed : List Char)
  | noSelection
  | pickedCustom (typed : List Char)
  | pickedText (t : List Char)
  deriving DecidableEq, Repr

structure Inputs where
  fileChoiceIdxs : List Nat
  skim : SkimRes
  confirmProceed : Bool
  deriving DecidableEq, Repr

/-- The `"📁 "` display tag. -/
def folderTag : List Char := "📁 ".toList

/-- Fuel-bounded worker for `dropPreRep`; each successful step shortens the
string by at least one character, so `s.length` fuel always suffices. -/
def dropPreRepFuel (pat : List Char) : Nat → List Char → List Char
  | 0, s => s
  | fuel + 1, s =>
    if pat ≠ [] ∧ pat.isPrefixOf s then dropPreRepFuel pat fuel (s.drop pat.length) else s

/-- Rust `str::trim_start_matches(pat)`: repeatedly remove a leading
occurrence of `pat`. -/
def dropPreRep (pat s : List Char) : List Char := dropPreRepFuel pat s.length s

/-- The display string of one candidate (`src/main.rs:268-281`), given the
candidate's `Path::display()` string. -/
def displayOf (searchRoot : List Char) (s : List Char) : List Char :=
  if s = ['.'] then "📁 . (current directory)".toList
  else if s = ['.', '.'] then "📁 .. (parent directory)".toList
  else if searchRoot.isPrefixOf s then
    folderTag ++ "~/".toList ++ (s.drop searchRoot.length).dropWhile (fun c => c = '/')
  else folderTag ++ s

/-- Mapping a selected display string back to a path string
(`src/main.rs:362-374`). -/
def reverseOf (searchRoot : List Char) (t : List Char) : List Char :=
  let clean := dropPreRep folderTag t
  if clean = ". (current directory)".toList then ['.']
  else if clean = ".. (parent directory)".toList then ['.', '.']
  else if "~/".toList.isPrefixOf clean then searchRoot ++ ['/'] ++ clean.drop 2
  else clean

/-- Create the chosen target directory when missing (`src/main.rs:377-393`). -/
def ensureTargetDir (st : FSState) (p : RPath) : Except Err (RPath × FSState) :=
  if ¬ existsAt st p then
    createDirAllAt st p >>= fun st2 => .ok (p, st2)
  else .ok (p, st)

/-- `get_target_directory` (`src/main.rs:258-397`).  Note the abort and
empty-selection branches return early, skipping directory creation. -/
def get_target_directory (st : FSState) (inp : Inputs) : Except Err (RPath × FSState) :=
  find_candidate_directories st >>= fun triple =>
  load_or_create_config triple.2.2 >>= fun pair =>
  match inp.skim with
  | .abort typed => .ok (strToRPath typed, pair.2)
  | .noSelection => .ok (strToRPath ['.'], pair.2)
  | .pickedCustom typed => ensureTargetDir pair.2 (strToRPath typed)
  | .pickedText t => ensureTargetDir pair.2 (strToRPath (reverseOf pair.1.search_root t))

/-! ## The command (`run_compile_command`) -/

inductive Outcome where
  | noFiles
  | noneSelected
  | cancelled
  | completed
  deriving DecidableEq, Repr

/-- `select_convention_files` (`src/main.rs:161-176`): the multi-select
widget returns indices into the discovered list. -/
def select_convention_files (files : List ConventionFile) (idxs : List Nat) :
    List ConventionFile :=
  idxs.filterMap (fun i => files[i]?)

/-- `run_compile_command` (`src/main.rs:100-133`). -/
def run_compile_command (st : FSState) (inp : Inputs) : Except Err (FSState × Outcome) :=
  find_convention_files st >>= fun files =>
  if files.isEmpty then .ok (st, .noFiles)
  else if (select_convention_files files inp.fileChoiceIdxs).isEmpty then
    .ok (st, .noneSelected)
  else
    get_target_directory st inp >>= fun pair =>
    if !inp.confirmProceed then .ok (pair.2, .cancelled)
    else
      compile_files pair.2 (select_convention_files files inp.fileChoiceIdxs) pair.1 >>=
        fun st2 => .ok (st2, .completed)

/-! ## Helper lemmas for the combination claims -/

/-- The contents of a list of files, read in order (hypothesis form for the
combination claims). -/
def readAllContents (st : FSState) : List ConventionFile → Except Err (List (List Char))
  | [] => .ok []
  | f :: t => do
    let c ← readToStringAt st f.path
    let rest ← readAllContents st t
    pure (c :: rest)

theorem except_bind_ok {α β : Type} (x : Except Err α) (f : α → Except Err β) (b : β) :
    (x >>= f) = .ok b ↔ ∃ a, x = .ok a ∧ f a = .ok b := by
  cases x <;> simp [Bind.bind, Except.bind]

theorem foldlM_combineStep (st : FSState) (files : List ConventionFile)
    (cs : List (List Char)) (acc : List (List Char) × List Char)
    (h : readAllContents st files = .ok cs) :
    files.foldlM (combineStep st) acc =
      .ok (acc.1 ++ files.map (fun f => removeMd f.name),
           acc.2 ++ List.flatten (cs.map (fun c => c ++ sepFor c))) := by
  induction files generalizing cs acc with
  | nil =>
    simp only [readAllContents, Except.ok.injEq] at h
    subst h
    simp [List.foldlM, pure, Except.pure]
  | cons f t ih =>
    simp only [readAllContents, except_bind_ok, pure, Except.pure, Except.ok.injEq] at h
    obtain ⟨c, hc, rest, hrest, h3⟩ := h
    subst h3
    simp only [List.foldlM, combineStep, hc, except_bind_ok]
    refine ⟨(acc.1 ++ [removeMd f.name], acc.2 ++ c ++ sepFor c), by simp [pure, Except.pure], ?_⟩
    rw [ih _ _ hrest]
    simp [List.append_assoc]

theorem combine_convention_files_eq (st : FSState) (files : List ConventionFile)
    (cs : List (List Char)) (h : readAllContents st files = .ok cs) :
    combine_convention_files st files =
      .ok (trimEnd (List.flatten (cs.map (fun c => c ++ sepFor c))),
           combinedFilenameOf files) := by
  simp only [combine_convention_files, except_bind_ok]
  exact ⟨_, foldlM_combineStep st files cs ([], []) h, by
    simp [pure, Except.pure, combinedFilenameOf]⟩

theorem trimEnd_ne_nil_of_mem {s : List Char} {c : Char} (hc : c ∈ s)
    (hw : isRustWs c = false) : trimEnd s ≠ [] := by
  intro h
  unfold trimEnd at h
  have h2 : s.reverse.dropWhile isRustWs = [] := by
    cases he : s.reverse.dropWhile isRustWs with
    | nil => rfl
    | cons a t => rw [he] at h; simp at h
  have := List.dropWhile_eq_nil_iff.mp h2 c (by simpa using hc)
  rw [hw] at this
  exact Bool.false_ne_true this

/-! ## Claim C1 -/

/-- Claim C1: for every non-empty list of selected convention files (whose
contents read as `cs`), the combined text produced by
`combine_convention_files` equals the specification's description
`specCombinedText cs`: the contents concatenated in order, where after a file
ending in exactly one newline one newline is appended, after one ending in no
newline two are appended, and after one already ending in two newlines nothing
is appended, with all trailing whitespace of the final text trimmed. -/
theorem c1_combination_matches_spec (st : FSState) (files : List ConventionFile)
    (cs : List (List Char)) (hne : files ≠ [])
    (h : readAllContents st files = .ok cs) :
    ∃ fn, combine_convention_files st files = .ok (specCombinedText cs, fn) := by
  refine ⟨combinedFilenameOf files, ?_⟩
  rw [combine_convention_files_eq st files cs h]
  unfold specCombinedText
  simp [funext sepFor_eq_specSep]

/-- Witness for C1 at the specification's own example: contents `"a\n"` and
`"b"` combine to `"a\n\nb"`. -/
theorem c1_witness :
    (∃ fn, combine_convention_files
        { fs := [ (["h".toList], .dir)
                , (["h".toList, "conventions".toList], .dir)
                , (["h".toList, "conventions".toList, "a.md".toList], .file "a\n".toList)
                , (["h".toList, "conventions".toList, "b.md".toList], .file "b".toList) ]
        , cwd := ["h".toList] }
        [ ⟨"a.md".toList, [.normal "conventions".toList, .normal "a.md".toList]⟩
        , ⟨"b.md".toList, [.normal "conventions".toList, .normal "b.md".toList]⟩ ] =
      .ok (specCombinedText ["a\n".toList, "b".toList], fn)) ∧
    specCombinedText ["a\n".toList, "b".toList] = "a\n\nb".toList :=
  ⟨c1_combination_matches_spec _ _ _ (by decide) (by decide), by decide⟩

/-! ## Claim C10 -/

/-- Counterexample to claim C10 as stated: with contents `"x "` and `" "`, the
combined text is `"x"`, and the non-final file's content `"x "` does not
appear as a contiguous substring of it (the final trailing trim reaches into
the non-final file's body when everything after it is whitespace). -/
theorem c10_counterexample :
    combine_convention_files
        { fs := [ (["h".toList], .dir)
                , (["h".toList, "conventions".toList], .dir)
                , (["h".toList, "conventions".toList, "x.md".toList], .file "x ".toList)
                , (["h".toList, "conventions".toList, "y.md".toList], .file " ".toList) ]
        , cwd := ["h".toList] }
        [ ⟨"x.md".toList, [.normal "conventions".toList, .normal "x.md".toList]⟩
        , ⟨"y.md".toList, [.normal "conventions".toList, .normal "y.md".toList]⟩ ] =
      .ok ("x".toList, "x_y.md".toList) ∧
    containsSeg "x".toList "x ".toList = false :=
  ⟨by decide, by decide⟩

/-- Claim C10 (amended): provided the final selected file's content contains a
non-whitespace character, the combined text is exactly each non-final file's
content verbatim in selection order, each followed only by its separator
newlines, followed by the final file's content with its trailing whitespace
trimmed — so combination never edits, truncates or reorders any file body. -/
theorem c10_bodies_preserved (st : FSState) (files : List ConventionFile)
    (cs : List (List Char)) (h : readAllContents st files = .ok cs)
    (hne : cs ≠ [])
    (hlast : ∃ ch ∈ cs.getLast hne, isRustWs ch = false) :
    ∃ fn, combine_convention_files st files =
      .ok (List.flatten (cs.dropLast.map (fun c => c ++ sepFor c)) ++
             trimEnd (cs.getLast hne), fn) := by
  refine ⟨combinedFilenameOf files, ?_⟩
  rw [combine_convention_files_eq st files cs h]
  obtain ⟨ch, hch, hw⟩ := hlast
  have hlast_ne : trimEnd (cs.getLast hne) ≠ [] := trimEnd_ne_nil_of_mem hch hw
  have hsep : trimEnd (cs.getLast hne ++ sepFor (cs.getLast hne)) = trimEnd (cs.getLast hne) :=
    trimEnd_append_of_all_ws (sepFor_all_ws _)
  have hdecomp : cs.dropLast ++ [cs.getLast hne] = cs := List.dropLast_append_getLast hne
  conv_lhs => rw [← hdecomp]
  rw [List.map_append, List.flatten_append]
  simp only [List.map_cons, List.map_nil, List.flatten_cons, List.flatten_nil,
    List.append_nil]
  rw [trimEnd_append_of_ne_nil (by rw [hsep]; exact hlast_ne), hsep]

/-- Witness for the amended C10. -/
theorem c10_bodies_preserved_witness :
    ∃ fn, combine_convention_files
        { fs := [ (["h".toList], .dir)
                , (["h".toList, "conventions".toList], .dir)
                , (["h".toList, "conventions".toList, "a.md".toList], .file "a\n".toList)
                , (["h".toList, "conventions".toList, "b.md".toList], .file "b \n".toList) ]
        , cwd := ["h".toList] }
        [ ⟨"a.md".toList, [.normal "conventions".toList, .normal "a.md".toList]⟩
        , ⟨"b.md".toList, [.normal "conventions".toList, .normal "b.md".toList]⟩ ] =
      .ok (List.flatten ((["a\n".toList, "b \n".toList].dropLast).map (fun c => c ++ sepFor c)) ++
             trimEnd (["a\n".toList, "b \n".toList].getLast (by decide)), fn) :=
  c10_bodies_preserved _ _ ["a\n".toList, "b \n".toList] (by decide) (by decide)
    ⟨'b', by decide, by decide⟩

/-! ## Claim C6 -/

/-- The filename claimed by the specification: base names with the `.md`
extension stripped, joined by `'_'`, suffixed `".md"`. -/
def specFilenameOf (files : List ConventionFile) : List Char :=
  joinSep ['_'] (files.map (fun f => specStripMd f.name)) ++ ".md".toList

/-- Fallthrough equation of `removeMd` when the first three characters do not
spell `".md"`. -/
theorem removeMd_cons₃ (c x y : Char) (t : List Char)
    (h : ¬(c = '.' ∧ x = 'm' ∧ y = 'd')) :
    removeMd (c :: x :: y :: t) = c :: removeMd (x :: y :: t) := by
  rw [removeMd.eq_def]
  split
  · rename_i rest heq
    injection heq with h1 heq; injection heq with h2 heq; injection heq with h3 heq
    exact absurd ⟨h1, h2, h3⟩ h
  · rename_i c' rest heq hcon
    injection hcon with h1 h2
    subst h1; subst h2
    rfl
  · rename_i heq
    exact absurd heq (by simp)

/-- Fallthrough equation of `containsMd`. -/
theorem containsMd_cons₃ (c x y : Char) (t : List Char)
    (h : ¬(c = '.' ∧ x = 'm' ∧ y = 'd')) :
    containsMd (c :: x :: y :: t) = containsMd (x :: y :: t) := by
  rw [containsMd.eq_def]
  split
  · rename_i rest heq
    injection heq with h1 heq; injection heq with h2 heq; injection heq with h3 heq
    exact absurd ⟨h1, h2, h3⟩ h
  · rename_i c' rest heq hcon
    injection hcon with h1 h2
    subst h2
    rfl
  · rename_i heq
    exact absurd heq (by simp)

/-- `str::replace(".md", "")` only strips a final `".md"` when the part before
it contains no `".md"` occurrence. -/
theorem removeMd_append_md :
    ∀ u : List Char, containsMd u = false → removeMd (u ++ ".md".toList) = u
  | [], _ => by decide
  | [c], _ => by
    show removeMd (c :: '.' :: 'm' :: 'd' :: []) = [c]
    rw [removeMd_cons₃ c '.' 'm' ('d' :: [])
      (by rintro ⟨_, h2, _⟩; exact absurd h2 (by decide))]
    rw [show removeMd ('.' :: 'm' :: 'd' :: []) = [] from by decide]
  | [c1, c2], _ => by
    show removeMd (c1 :: c2 :: '.' :: 'm' :: 'd' :: []) = [c1, c2]
    rw [removeMd_cons₃ c1 c2 '.' ('m' :: 'd' :: [])
      (by rintro ⟨_, _, h3⟩; exact absurd h3 (by decide))]
    rw [removeMd_cons₃ c2 '.' 'm' ('d' :: [])
      (by rintro ⟨_, h2, _⟩; exact absurd h2 (by decide))]
    rw [show removeMd ('.' :: 'm' :: 'd' :: []) = [] from by decide]
  | c1 :: c2 :: c3 :: rest, h => by
    by_cases h3 : c1 = '.' ∧ c2 = 'm' ∧ c3 = 'd'
    · obtain ⟨e1, e2, e3⟩ := h3
      subst e1; subst e2; subst e3
      rw [show containsMd ('.' :: 'm' :: 'd' :: rest) = true from rfl] at h
      exact absurd h (by simp)
    · show removeMd (c1 :: c2 :: c3 :: (rest ++ ".md".toList)) = c1 :: c2 :: c3 :: rest
      rw [removeMd_cons₃ c1 c2 c3 (rest ++ ".md".toList) h3]
      have hh : containsMd (c2 :: c3 :: rest) = false := by
        rw [containsMd_cons₃ c1 c2 c3 rest h3] at h
        exact h
      rw [show c2 :: c3 :: (rest ++ ".md".toList) = (c2 :: c3 :: rest) ++ ".md".toList from rfl]
      rw [removeMd_append_md (c2 :: c3 :: rest) hh]

/-- Under the amended C6 hypothesis, `removeMd` agrees with stripping the
final extension. -/
theorem removeMd_eq_specStripMd (n : List Char)
    (hsuf : endsWithL n ".md".toList = true)
    (hcore : containsMd (n.take (n.length - 3)) = false) :
    removeMd n = specStripMd n := by
  obtain ⟨u, hu⟩ : ∃ u, u ++ ".md".toList = n :=
    List.isSuffixOf_iff_suffix.mp hsuf
  subst hu
  have hlen : (u ++ ".md".toList).length - 3 = u.length := by
    simp [String.toList]
  have htake : (u ++ ".md".toList).take u.length = u := List.take_left u _
  rw [hlen, htake] at hcore
  rw [specStripMd, if_pos hsuf, hlen, htake]
  exact removeMd_append_md u hcore

theorem combinedFilenameOf_eq_spec (files : List ConventionFile)
    (hnames : ∀ f ∈ files, endsWithL f.name ".md".toList = true ∧
      containsMd (f.name.take (f.name.length - 3)) = false) :
    combinedFilenameOf files = specFilenameOf files := by
  unfold combinedFilenameOf specFilenameOf
  congr 2
  exact List.map_congr_left (fun f hf =>
    removeMd_eq_specStripMd f.name (hnames f hf).1 (hnames f hf).2)

/-- Counterexample to claim C6 as stated: selecting the single file
`a.md.md` (content `"x"`), the code derives the filename `a.md` — because
`replace(".md", "")` removes every occurrence of `".md"` — while stripping
only the `.md` extension would give `a.md.md`. -/
theorem c6_counterexample :
    combine_convention_files
        { fs := [ (["h".toList], .dir)
                , (["h".toList, "conventions".toList], .dir)
                , (["h".toList, "conventions".toList, "a.md.md".toList], .file "x".toList) ]
        , cwd := ["h".toList] }
        [ ⟨"a.md.md".toList, [.normal "conventions".toList, .normal "a.md.md".toList]⟩ ] =
      .ok ("x".toList, "a.md".toList) ∧
    specFilenameOf
        [ ⟨"a.md.md".toList, [.normal "conventions".toList, .normal "a.md.md".toList]⟩ ] =
      "a.md.md".toList ∧
    ("a.md".toList : List Char) ≠ "a.md.md".toList :=
  ⟨by decide, by decide, by decide⟩

/-- Claim C6 (amended): for every non-empty selection of files whose base
names contain the substring `".md"` exactly once, namely as the final
extension, the combined output filename equals the base names with the `.md`
extension stripped, joined by `'_'`, with `".md"` appended. -/
theorem c6_filename_derivation (st : FSState) (files : List ConventionFile)
    (cs : List (List Char)) (hne : files ≠ [])
    (h : readAllContents st files = .ok cs)
    (hnames : ∀ f ∈ files, endsWithL f.name ".md".toList = true ∧
      containsMd (f.name.take (f.name.length - 3)) = false) :
    ∃ content, combine_convention_files st files = .ok (content, specFilenameOf files) := by
  refine ⟨trimEnd (List.flatten (cs.map (fun c => c ++ sepFor c))), ?_⟩
  rw [combine_convention_files_eq st files cs h, combinedFilenameOf_eq_spec files hnames]

/-- Witness for the amended C6: selecting `a.md` then `b.md` yields `a_b.md`. -/
theorem c6_filename_derivation_witness :
    (∃ content, combine_convention_files
        { fs := [ (["h".toList], .dir)
                , (["h".toList, "conventions".toList], .dir)
                , (["h".toList, "conventions".toList, "a.md".toList], .file "a".toList)
                , (["h".toList, "conventions".toList, "b.md".toList], .file "b".toList) ]
        , cwd := ["h".toList] }
        [ ⟨"a.md".toList, [.normal "conventions".toList, .normal "a.md".toList]⟩
        , ⟨"b.md".toList, [.normal "conventions".toList, .normal "b.md".toList]⟩ ] =
      .ok (content, specFilenameOf
        [ ⟨"a.md".toList, [.normal "conventions".toList, .normal "a.md".toList]⟩
        , ⟨"b.md".toList, [.normal "conventions".toList, .normal "b.md".toList]⟩ ])) ∧
    specFilenameOf
        [ ⟨"a.md".toList, [.normal "conventions".toList, .normal "a.md".toList]⟩
        , ⟨"b.md".toList, [.normal "conventions".toList, .normal "b.md".toList]⟩ ] =
      "a_b.md".toList :=
  ⟨c6_filename_derivation _ _ ["a".toList, "b".toList] (by decide) (by decide) (by decide),
   by decide⟩

/-! ## Claim C4 -/

theorem except_bind_error {α β : Type} (x : Except Err α) (f : α → Except Err β) (e : Err) :
    (x >>= f) = .error e ↔ x = .error e ∨ ∃ a, x = .ok a ∧ f a = .error e := by
  cases x <;> simp [Bind.bind, Except.bind]

theorem entry_child_iff (k p : APath) (n : List Char) :
    (k.getLast? = some n ∧ k.dropLast = p) ↔ k = p ++ [n] := by
  constructor
  · rintro ⟨h1, h2⟩
    have h3 := List.dropLast_append_getLast? n (Option.mem_def.mpr h1)
    rw [h2] at h3
    exact h3.symm
  · rintro rfl
    exact ⟨by rw [List.getLast?_append_cons]; rfl, by simp⟩

theorem lookup_some_iff_key (fs : List (APath × Node)) (q : APath) :
    (∃ nd, lookupFS fs q = some nd) ↔ ∃ e ∈ fs, e.1 = q := by
  induction fs with
  | nil =>
    constructor
    · rintro ⟨nd, h⟩; simp [lookupFS] at h
    · rintro ⟨e, he, _⟩; simp at he
  | cons e t ih =>
    by_cases he : e.1 = q
    · constructor
      · intro _; exact ⟨e, List.mem_cons_self e t, he⟩
      · intro _; exact ⟨e.2, by simp only [lookupFS]; rw [if_pos he]⟩
    · constructor
      · rintro ⟨nd, h⟩
        simp only [lookupFS] at h
        rw [if_neg he] at h
        obtain ⟨e', he', hq⟩ := ih.mp ⟨nd, h⟩
        exact ⟨e', List.mem_cons_of_mem e he', hq⟩
      · rintro ⟨e', he', hq⟩
        rcases List.mem_cons.mp he' with rfl | hmem
        · exact absurd hq he
        · obtain ⟨nd, h⟩ := ih.mpr ⟨e', hmem, hq⟩
          exact ⟨nd, by simp only [lookupFS]; rw [if_neg he]; exact h⟩

theorem mem_childNames_iff (fs : List (APath × Node)) (p : APath) (n : List Char) :
    n ∈ childNames fs p ↔ ∃ nd, lookupFS fs (p ++ [n]) = some nd := by
  rw [lookup_some_iff_key]
  unfold childNames
  rw [List.mem_filterMap]
  constructor
  · rintro ⟨e, he, hfe⟩
    refine ⟨e, he, ?_⟩
    cases hL : e.1.getLast? with
    | none => rw [hL] at hfe; simp at hfe
    | some m =>
      rw [hL] at hfe
      have hfe' : (if e.1.dropLast = p then some m else none) = some n := hfe
      by_cases hdp : e.1.dropLast = p
      · rw [if_pos hdp] at hfe'
        injection hfe' with hmn
        exact (entry_child_iff e.1 p n).mp ⟨by rw [hL, hmn], hdp⟩
      · rw [if_neg hdp] at hfe'; simp at hfe'
  · rintro ⟨e, he, hfe⟩
    refine ⟨e, he, ?_⟩
    obtain ⟨h1, h2⟩ := (entry_child_iff e.1 p n).mpr hfe
    rw [h1]
    show (if e.1.dropLast = p then some n else none) = some n
    rw [if_pos h2]

/-- Claim C4: discovery fails with the missing-directory error exactly when
the `conventions/` directory is absent; when the directory exists it returns
exactly the entries directly inside it that are files (the file test follows
symlinks, as Rust's `Path::is_file` does) with extension `md`, and no others,
sorted lexicographically by name; and an empty result is not an error — the
caller treats it as a clean exit with the state unchanged. -/
theorem c4_discovery_contract (st : FSState) (inp : Inputs) :
    (find_convention_files st = .error .conventionsMissing ↔
        existsAt st [.normal conventionsName] = false) ∧
    (lookupFS st.fs (st.cwd ++ [conventionsName]) = some .dir →
      ∃ out, find_convention_files st = .ok out ∧
        (∀ f, f ∈ out ↔
          (∃ nd, lookupFS st.fs (st.cwd ++ [conventionsName, f.name]) = some nd) ∧
          f.path = [.normal conventionsName, .normal f.name] ∧
          isFileAt st [.normal conventionsName, .normal f.name] = true ∧
          extFromName f.name = some "md".toList) ∧
        List.Sorted cfLe out) ∧
    (find_convention_files st = .ok [] → run_compile_command st inp = .ok (st, .noFiles)) := by
  refine ⟨⟨?_, ?_⟩, ?_, ?_⟩
  · intro hf
    by_cases hex : existsAt st [.normal conventionsName] = false
    · exact hex
    · exfalso
      have hex' : existsAt st [.normal conventionsName] = true := by
        cases h : existsAt st [.normal conventionsName]
        · exact absurd h hex
        · rfl
      unfold find_convention_files at hf
      rw [if_neg (by simp [hex'])] at hf
      rcases (except_bind_error _ _ _).mp hf with h | ⟨a, _, hpure⟩
      · unfold readDirNames at h
        split at h <;> (try split at h) <;> simp_all
      · simp [pure, Except.pure] at hpure
  · intro hex
    unfold find_convention_files
    rw [if_pos (by simp [hex])]
  · intro hdir
    have hex : existsAt st [.normal conventionsName] = true := by
      unfold existsAt nodeAt
      rw [show resolveFrom st.cwd [.normal conventionsName] = st.cwd ++ [conventionsName]
        from rfl, hdir]
    have hrd : readDirNames st [.normal conventionsName] =
        .ok (childNames st.fs (st.cwd ++ [conventionsName])) := by
      unfold readDirNames nodeAt
      rw [show resolveFrom st.cwd [.normal conventionsName] = st.cwd ++ [conventionsName]
        from rfl, hdir]
    refine ⟨List.insertionSort cfLe
        (((childNames st.fs (st.cwd ++ [conventionsName])).filter (fun n =>
          isFileAt st [.normal conventionsName, .normal n] &&
          decide (extFromName n = some "md".toList))).map
        (fun n => ConventionFile.mk n [.normal conventionsName, .normal n])), ?_, ?_, ?_⟩
    · unfold find_convention_files
      rw [if_neg (by simp [hex]), hrd]
      rfl
    · intro f
      rw [(List.perm_insertionSort cfLe _).mem_iff]
      simp only [List.mem_map, List.mem_filter]
      constructor
      · rintro ⟨n, ⟨hn, hpred⟩, rfl⟩
        simp only [Bool.and_eq_true, decide_eq_true_eq] at hpred
        refine ⟨?_, rfl, hpred.1, hpred.2⟩
        have h2 := (mem_childNames_iff st.fs (st.cwd ++ [conventionsName]) n).mp hn
        rwa [show (st.cwd ++ [conventionsName]) ++ [n] = st.cwd ++ [conventionsName, n]
          from by simp] at h2
      · rintro ⟨⟨nd, hnd⟩, hpath, hfile, hext⟩
        refine ⟨f.name, ⟨?_, ?_⟩, ?_⟩
        · apply (mem_childNames_iff _ _ _).mpr
          refine ⟨nd, ?_⟩
          rwa [show (st.cwd ++ [conventionsName]) ++ [f.name] = st.cwd ++ [conventionsName, f.name]
            from by simp]
        · simp only [Bool.and_eq_true, decide_eq_true_eq]
          exact ⟨hfile, hext⟩
        · cases f with
          | mk nm pth =>
            simp only at hpath
            rw [hpath]
    · exact List.sorted_insertionSort cfLe _
  · intro hempty
    simp [run_compile_command, hempty, Bind.bind, Except.bind]

def c4stA : FSState := { fs := [], cwd := ["h".toList] }

def c4stB : FSState :=
  { fs := [ (["h".toList], .dir)
          , (["h".toList, "conventions".toList], .dir)
          , (["h".toList, "conventions".toList, "b.md".toList], .file "y".toList)
          , (["h".toList, "conventions".toList, "a.md".toList], .file "x".toList)
          , (["h".toList, "conventions".toList, "notes.txt".toList], .file "z".toList) ]
  , cwd := ["h".toList] }

def c4stC : FSState :=
  { fs := [ (["h".toList], .dir), (["h".toList, "conventions".toList], .dir) ]
  , cwd := ["h".toList] }

def c4inp : Inputs := { fileChoiceIdxs := [], skim := .noSelection, confirmProceed := false }

/-- Witness for C4 at three concrete filesystems: a missing `conventions/`,
a populated one, and an empty one. -/
theorem c4_witness :
    (find_convention_files c4stA = .error .conventionsMissing ↔
        existsAt c4stA [.normal conventionsName] = false) ∧
    (∃ out, find_convention_files c4stB = .ok out ∧
        (∀ f, f ∈ out ↔
          (∃ nd, lookupFS c4stB.fs (c4stB.cwd ++ [conventionsName, f.name]) = some nd) ∧
          f.path = [.normal conventionsName, .normal f.name] ∧
          isFileAt c4stB [.normal conventionsName, .normal f.name] = true ∧
          extFromName f.name = some "md".toList) ∧
        List.Sorted cfLe out) ∧
    (run_compile_command c4stC c4inp = .ok (c4stC, .noFiles)) :=
  ⟨(c4_discovery_contract c4stA c4inp).1,
   (c4_discovery_contract c4stB c4inp).2.1 (by decide),
   (c4_discovery_contract c4stC c4inp).2.2 (by decide)⟩

/-! ## Prefix and path lemmas used by the publication claims -/

theorem pre_refl (p : APath) : pre p p := ⟨[], by simp⟩

theorem pre_trans {p q r : APath} (h1 : pre p q) (h2 : pre q r) : pre p r := by
  obtain ⟨t1, rfl⟩ := h1
  obtain ⟨t2, rfl⟩ := h2
  exact ⟨t1 ++ t2, by simp⟩

theorem pre_append (p t : APath) : pre p (p ++ t) := ⟨t, rfl⟩

theorem pre_length_le {p q : APath} (h : pre p q) : p.length ≤ q.length := by
  obtain ⟨t, rfl⟩ := h
  simp

theorem pre_eq_of_length {p q : APath} (h : pre p q) (hl : q.length ≤ p.length) : p = q := by
  obtain ⟨t, rfl⟩ := h
  have : t = [] := by
    rw [List.length_append] at hl
    exact List.eq_nil_of_length_eq_zero (by omega)
  simp [this]

theorem pre_take {p q : APath} (h : pre p q) : q.take p.length = p := by
  obtain ⟨t, rfl⟩ := h
  exact List.take_left p t

theorem pre_of_take {p q : APath} (h : q.take p.length = p) : pre p q := by
  have h2 := List.take_append_drop p.length q
  rw [h] at h2
  exact ⟨q.drop p.length, h2⟩

/-- A prefix of `x ++ [a]` is a prefix of `x` or the whole path. -/
theorem pre_snoc_cases {p x : APath} {a : List Char} (h : pre p (x ++ [a])) :
    pre p x ∨ p = x ++ [a] := by
  by_cases hl : p.length ≤ x.length
  · left
    have ht := pre_take h
    rw [List.take_append_eq_append_take] at ht
    have h0 : p.length - x.length = 0 := by omega
    rw [h0] at ht
    rw [show ([a] : List (List Char)).take 0 = [] from rfl, List.append_nil] at ht
    exact pre_of_take ht
  · right
    refine pre_eq_of_length h ?_
    rw [List.length_append, List.length_singleton]
    omega

/-- A prefix of `x ++ [a, b]` is a prefix of `x`, or `x ++ [a]`, or the whole
path. -/
theorem pre_snoc₂_cases {p x : APath} {a b : List Char} (h : pre p (x ++ [a, b])) :
    pre p x ∨ p = x ++ [a] ∨ p = x ++ [a, b] := by
  have h2 : pre p ((x ++ [a]) ++ [b]) := by
    rwa [show (x ++ [a]) ++ [b] = x ++ [a, b] from by simp]
  rcases pre_snoc_cases h2 with h3 | h3
  · rcases pre_snoc_cases h3 with h4 | h4
    · exact Or.inl h4
    · exact Or.inr (Or.inl h4)
  · exact Or.inr (Or.inr (by rw [h3]; simp))

/-- Paths ending in different final components are different. -/
theorem append_last_ne {x y : APath} {a b : List Char} (h : a ≠ b) :
    x ++ [a] ≠ y ++ [b] := by
  intro he
  have h2 : (x ++ [a]).getLast? = (y ++ [b]).getLast? := by rw [he]
  rw [List.getLast?_append_cons, List.getLast?_append_cons] at h2
  exact h (by injection h2)

/-- A path ending in a given final component is never a plain prefix-shorter
path: if `x ++ [a] = y` and `pre (x ++ [a]) y` fails… (helper: a snoc path is
nonempty). -/
theorem snoc_ne_nil {x : APath} {a : List Char} : x ++ [a] ≠ [] := by simp

theorem resolveFrom_append (base : APath) (r s : RPath) :
    resolveFrom base (r ++ s) = resolveFrom (resolveFrom base r) s := by
  induction r generalizing base with
  | nil => rfl
  | cons c t ih => cases c <;> simp [resolveFrom, ih]

theorem resolveFrom_snoc_normal (base : APath) (r : RPath) (n : List Char) :
    resolveFrom base (r ++ [.normal n]) = resolveFrom base r ++ [n] := by
  rw [resolveFrom_append]; rfl

theorem dropLast_snoc (x : APath) (a : List Char) : (x ++ [a]).dropLast = x := by
  simp

/-- The derived combined filename always ends in `'d'` (it has suffix
`".md"`), so it differs from any string not ending in `'d'`. -/
theorem combinedFilenameOf_getLast? (files : List ConventionFile) :
    (combinedFilenameOf files).getLast? = some 'd' := by
  unfold combinedFilenameOf
  rw [show ".md".toList = ['.', 'm', 'd'] from rfl, List.getLast?_append_cons]
  rfl

theorem ne_combinedFilenameOf {s : List Char} (files : List ConventionFile)
    (hs : s.getLast? ≠ some 'd') : s ≠ combinedFilenameOf files := by
  intro h
  rw [h] at hs
  exact hs (combinedFilenameOf_getLast? files)

/-! ## Inversion lemmas for the modelled filesystem operations -/

theorem removeFileAt_ok_inv {st st2 : FSState} {r : RPath}
    (h : removeFileAt st r = .ok st2) :
    st2.cwd = st.cwd ∧
    lookupFS st.fs (resolveFrom st.cwd r) ≠ some .dir ∧
    lookupFS st.fs (resolveFrom st.cwd r) ≠ none ∧
    ∀ q, lookupFS st2.fs q =
      if q = resolveFrom st.cwd r then none else lookupFS st.fs q := by
  unfold removeFileAt nodeAt at h
  split at h <;>
    first
    | (injection h with h2
       refine ⟨by rw [← h2], by simp_all, by simp_all, fun q => ?_⟩
       rw [← h2]
       exact lookup_eraseKey st.fs _ q)
    | simp_all

theorem removeDirAllAt_ok_inv {st st2 : FSState} {r : RPath}
    (h : removeDirAllAt st r = .ok st2) :
    st2.cwd = st.cwd ∧
    lookupFS st.fs (resolveFrom st.cwd r) = some .dir ∧
    ∀ q, lookupFS st2.fs q =
      if pre (resolveFrom st.cwd r) q then none else lookupFS st.fs q := by
  unfold removeDirAllAt nodeAt at h
  split at h <;>
    first
    | (injection h with h2
       refine ⟨by rw [← h2], by simp_all, fun q => ?_⟩
       rw [← h2]
       exact lookup_eraseTree st.fs _ q)
    | simp_all

theorem symlinkAt_ok_inv {st st2 : FSState} {o : APath} {linkR : RPath}
    (h : symlinkAt st o linkR = .ok st2) :
    st2.cwd = st.cwd ∧
    lookupFS st.fs (resolveFrom st.cwd linkR) = none ∧
    resolveFrom st.cwd linkR ≠ [] ∧
    parentIsDir st.fs (resolveFrom st.cwd linkR) = true ∧
    ∀ q, lookupFS st2.fs q =
      if q = resolveFrom st.cwd linkR then some (.symlink o) else lookupFS st.fs q := by
  unfold symlinkAt at h
  split at h
  · simp_all
  · rename_i hnone
    split at h
    · rename_i hcond
      injection h with h2
      simp only [Bool.and_eq_true, ne_eq, decide_eq_true_eq] at hcond
      refine ⟨by rw [← h2], hnone, hcond.1, hcond.2, fun q => ?_⟩
      rw [← h2]
      exact lookup_setKey st.fs _ _ q
    · simp_all

theorem canonicalizeAt_of_file {st : FSState} {r : RPath} {c : List Char}
    (h : lookupFS st.fs (resolveFrom st.cwd r) = some (.file c)) :
    canonicalizeAt st r = .ok (resolveFrom st.cwd r) := by
  unfold canonicalizeAt
  rw [h]

theorem canonicalizeAt_of_dir {st : FSState} {r : RPath}
    (h : lookupFS st.fs (resolveFrom st.cwd r) = some .dir) :
    canonicalizeAt st r = .ok (resolveFrom st.cwd r) := by
  unfold canonicalizeAt
  rw [h]

theorem canonicalizeAt_of_none {st : FSState} {r : RPath}
    (h : lookupFS st.fs (resolveFrom st.cwd r) = none) :
    canonicalizeAt st r = .error .canonFailed := by
  unfold canonicalizeAt
  rw [h]

theorem parentIsDir_iff (fs : List (APath × Node)) (p : APath) :
    parentIsDir fs p = true ↔
      (p.dropLast = [] ∨ lookupFS fs p.dropLast = some .dir) := by
  simp [parentIsDir]

theorem dropLast_ne_self_snoc {x : APath} {a : List Char} :
    (x ++ [a]).dropLast ≠ x ++ [a] := by
  rw [dropLast_snoc]
  intro h
  have h2 := congrArg List.length h
  simp at h2

theorem createDirStep_ok_inv {st st2 : FSState} {p : APath}
    (h : createDirStep st p = .ok st2) :
    st2.cwd = st.cwd ∧
    (lookupFS st.fs p = none ∨ lookupFS st.fs p = some .dir) ∧
    ∀ q, lookupFS st2.fs q = if q = p then some .dir else lookupFS st.fs q := by
  unfold createDirStep at h
  split at h
  · rename_i hnone
    injection h with h2
    refine ⟨by rw [← h2], Or.inl hnone, fun q => ?_⟩
    rw [← h2]
    exact lookup_setKey st.fs p .dir q
  · rename_i hdir
    injection h with h2
    subst h2
    refine ⟨rfl, Or.inr hdir, fun q => ?_⟩
    by_cases hq : q = p
    · rw [if_pos hq, hq, hdir]
    · rw [if_neg hq]
  · simp_all

theorem foldlM_createDirStep_ok :
    ∀ (ps : List APath) (st st2 : FSState),
      ps.foldlM createDirStep st = .ok st2 →
      st2.cwd = st.cwd ∧
      (∀ q, q ∉ ps → lookupFS st2.fs q = lookupFS st.fs q) ∧
      (∀ q ∈ ps, lookupFS st2.fs q = some .dir ∧
        (lookupFS st.fs q = none ∨ lookupFS st.fs q = some .dir))
  | [], st, st2, h => by
    have h2 : st = st2 := by simpa [List.foldlM, pure, Except.pure] using h
    subst h2
    exact ⟨rfl, fun _ _ => rfl, by simp⟩
  | p :: ps, st, st2, h => by
    simp only [List.foldlM] at h
    rw [except_bind_ok] at h
    obtain ⟨st1, h1, h2⟩ := h
    obtain ⟨hcwd1, horig1, hdesc1⟩ := createDirStep_ok_inv h1
    obtain ⟨hcwd2, hun2, hmem2⟩ := foldlM_createDirStep_ok ps st1 st2 h2
    refine ⟨by rw [hcwd2, hcwd1], ?_, ?_⟩
    · intro q hq
      have hqp : q ≠ p := fun hh => hq (by rw [hh]; exact List.mem_cons_self p ps)
      have hqps : q ∉ ps := fun hh => hq (List.mem_cons_of_mem _ hh)
      rw [hun2 q hqps, hdesc1 q, if_neg hqp]
    · intro q hq
      rcases List.mem_cons.mp hq with rfl | hmem
      · by_cases hqps : q ∈ ps
        · exact ⟨(hmem2 q hqps).1, horig1⟩
        · refine ⟨?_, horig1⟩
          rw [hun2 q hqps, hdesc1 q, if_pos rfl]
      · obtain ⟨ha, hb⟩ := hmem2 q hmem
        refine ⟨ha, ?_⟩
        by_cases hqp : q = p
        · rw [hqp]; exact horig1
        · rw [hdesc1 q, if_neg hqp] at hb
          exact hb

theorem mem_prefixesOf {q p : APath} : q ∈ prefixesOf p ↔ q ≠ [] ∧ pre q p := by
  unfold prefixesOf
  rw [List.mem_map]
  constructor
  · rintro ⟨i, hi, rfl⟩
    rw [List.mem_range] at hi
    refine ⟨?_, ⟨p.drop (i + 1), List.take_append_drop _ p⟩⟩
    intro hnil
    have h2 : (p.take (i + 1)).length = 0 := by rw [hnil]; rfl
    rw [List.length_take] at h2
    omega
  · rintro ⟨hne, hp⟩
    have h2 : 0 < q.length := List.length_pos.mpr hne
    refine ⟨q.length - 1, ?_, ?_⟩
    · rw [List.mem_range]
      have h1 := pre_length_le hp
      omega
    · rw [show q.length - 1 + 1 = q.length from by omega, pre_take hp]

theorem createDirAllAt_ok_inv {st st2 : FSState} {r : RPath}
    (h : createDirAllAt st r = .ok st2) :
    st2.cwd = st.cwd ∧
    (∀ q, ¬ (q ≠ [] ∧ pre q (resolveFrom st.cwd r)) →
      lookupFS st2.fs q = lookupFS st.fs q) ∧
    (∀ q, q ≠ [] → pre q (resolveFrom st.cwd r) →
      lookupFS st2.fs q = some .dir ∧
      (lookupFS st.fs q = none ∨ lookupFS st.fs q = some .dir)) := by
  obtain ⟨hcwd, hun, hmem⟩ := foldlM_createDirStep_ok _ _ _ h
  refine ⟨hcwd, ?_, ?_⟩
  · intro q hq
    exact hun q (fun hmem' => hq (mem_prefixesOf.mp hmem'))
  · intro q h1 h2
    exact hmem q (mem_prefixesOf.mpr ⟨h1, h2⟩)

theorem writeFileAt_ok_inv {st st2 : FSState} {r : RPath} {c : List Char}
    (hns : ∀ t, lookupFS st.fs (resolveFrom st.cwd r) ≠ some (.symlink t))
    (h : writeFileAt st r c = .ok st2) :
    st2.cwd = st.cwd ∧
    parentIsDir st.fs (resolveFrom st.cwd r) = true ∧
    ∀ q, lookupFS st2.fs q =
      if q = resolveFrom st.cwd r then some (.file c) else lookupFS st.fs q := by
  unfold writeFileAt at h
  split at h
  · rename_i t heq
    exact absurd heq (hns t)
  · simp_all
  · split at h
    · rename_i hpar
      injection h with h2
      exact ⟨by rw [← h2], hpar, fun q => by rw [← h2]; exact lookup_setKey st.fs _ _ q⟩
    · simp_all

/-- Inversion of one iteration of the symlink loop, assuming the combined
file's path currently holds a regular file.  A successful iteration leaves
the state unchanged except that `target_dir/<n>` now holds a symlink to the
combined file's absolute path; it also certifies that the link path differed
from the combined path, was not a directory, and sits in a directory. -/
theorem stepSymlinkName_ok_inv {st st2 : FSState} {combinedRel tdR : RPath}
    {n : List Char} {c : List Char}
    (hA : lookupFS st.fs (resolveFrom st.cwd combinedRel) = some (.file c))
    (h : stepSymlinkName combinedRel tdR st n = .ok st2) :
    st2.cwd = st.cwd ∧
    resolveFrom st.cwd tdR ++ [n] ≠ resolveFrom st.cwd combinedRel ∧
    lookupFS st.fs (resolveFrom st.cwd tdR ++ [n]) ≠ some .dir ∧
    parentIsDir st.fs (resolveFrom st.cwd tdR ++ [n]) = true ∧
    ∀ q, lookupFS st2.fs q =
      if q = resolveFrom st.cwd tdR ++ [n]
      then some (.symlink (resolveFrom st.cwd combinedRel))
      else lookupFS st.fs q := by
  have hres : resolveFrom st.cwd (tdR ++ [.normal n]) = resolveFrom st.cwd tdR ++ [n] :=
    resolveFrom_snoc_normal st.cwd tdR n
  unfold stepSymlinkName at h
  rw [except_bind_ok] at h
  obtain ⟨st1, h1, h2⟩ := h
  rw [except_bind_ok] at h2
  obtain ⟨ab, hcan, hsym⟩ := h2
  by_cases hcond : (existsAt st (tdR ++ [.normal n]) || isSymlinkAt st (tdR ++ [.normal n])) = true
  · rw [if_pos hcond] at h1
    obtain ⟨hcwd1, hnotdir, hnotnone, hdesc1⟩ := removeFileAt_ok_inv h1
    simp only [hres] at hnotdir hnotnone hdesc1
    by_cases hAL : resolveFrom st.cwd combinedRel = resolveFrom st.cwd tdR ++ [n]
    · have hnone : lookupFS st1.fs (resolveFrom st1.cwd combinedRel) = none := by
        rw [hcwd1, hdesc1, if_pos hAL]
      rw [canonicalizeAt_of_none hnone] at hcan
      exact absurd hcan (by simp)
    · have hA1 : lookupFS st1.fs (resolveFrom st1.cwd combinedRel) = some (.file c) := by
        rw [hcwd1, hdesc1, if_neg hAL]
        exact hA
      rw [canonicalizeAt_of_file hA1] at hcan
      injection hcan with hab
      obtain ⟨hcwd2, hnone2, hne2, hpar2, hdesc2⟩ := symlinkAt_ok_inv hsym
      simp only [hcwd1, hres] at hnone2 hne2 hpar2 hdesc2
      refine ⟨by rw [hcwd2, hcwd1], fun hh => hAL hh.symm, hnotdir, ?_, ?_⟩
      · rw [parentIsDir_iff] at hpar2 ⊢
        rcases hpar2 with hp | hp
        · exact Or.inl hp
        · right
          rw [hdesc1] at hp
          rwa [if_neg dropLast_ne_self_snoc] at hp
      · intro q
        rw [hdesc2 q]
        by_cases hq : q = resolveFrom st.cwd tdR ++ [n]
        · rw [if_pos hq, if_pos hq, ← hab, hcwd1]
        · rw [if_neg hq, if_neg hq, hdesc1 q, if_neg hq]
  · rw [if_neg hcond] at h1
    have h1' : st = st1 := by simpa [pure, Except.pure] using h1
    subst h1'
    rw [canonicalizeAt_of_file hA] at hcan
    injection hcan with hab
    obtain ⟨hcwd2, hnone2, hne2, hpar2, hdesc2⟩ := symlinkAt_ok_inv hsym
    simp only [hres] at hnone2 hne2 hpar2 hdesc2
    refine ⟨hcwd2, ?_, ?_, hpar2, ?_⟩
    · intro hh
      rw [hh, hA] at hnone2
      exact Option.noConfusion hnone2
    · rw [hnone2]
      simp
    · intro q
      rw [hdesc2 q, ← hab]

theorem resolveFrom_two (base : APath) (a b : List Char) :
    resolveFrom base [.normal a, .normal b] = base ++ [a, b] := by
  simp [resolveFrom]

theorem lookup_none_of_not_exists_not_symlink {st : FSState} {r : RPath}
    (h1 : existsAt st r = false) (h2 : isSymlinkAt st r = false) :
    lookupFS st.fs (resolveFrom st.cwd r) = none := by
  unfold existsAt nodeAt at h1
  unfold isSymlinkAt nodeAt at h2
  cases hl : lookupFS st.fs (resolveFrom st.cwd r) with
  | none => rfl
  | some nd => cases nd <;> rw [hl] at h1 h2 <;> simp_all

/-- Inversion of the agents-folder block, assuming `conventions/agents` is
currently a real directory or absent.  When absent, nothing happens; when a
directory, `target_dir/AGENTS` ends up a symlink to its absolute path, and
everything outside the `AGENTS` link path (outside its subtree, in the
`remove_dir_all` case, which also certifies the link path is not above the
working directory) is untouched. -/
theorem agentsStep_ok_inv {st st2 : FSState} {tdR : RPath}
    (hG : lookupFS st.fs (st.cwd ++ [conventionsName, agentsLower]) = some .dir ∨
          lookupFS st.fs (st.cwd ++ [conventionsName, agentsLower]) = none)
    (h : agentsStep tdR st = .ok st2) :
    st2.cwd = st.cwd ∧
    ((lookupFS st.fs (st.cwd ++ [conventionsName, agentsLower]) = none ∧ st2 = st) ∨
     (lookupFS st.fs (st.cwd ++ [conventionsName, agentsLower]) = some .dir ∧
      lookupFS st2.fs (resolveFrom st.cwd tdR ++ [agentsUpper]) =
        some (.symlink (st.cwd ++ [conventionsName, agentsLower])) ∧
      ((lookupFS st.fs (resolveFrom st.cwd tdR ++ [agentsUpper]) ≠ some .dir ∧
        (∀ q, q ≠ resolveFrom st.cwd tdR ++ [agentsUpper] →
          lookupFS st2.fs q = lookupFS st.fs q)) ∨
       (¬ pre (resolveFrom st.cwd tdR ++ [agentsUpper]) st.cwd ∧
        (∀ q, ¬ pre (resolveFrom st.cwd tdR ++ [agentsUpper]) q →
          lookupFS st2.fs q = lookupFS st.fs q))))) := by
  have hGres : resolveFrom st.cwd [.normal conventionsName, .normal agentsLower] =
      st.cwd ++ [conventionsName, agentsLower] := resolveFrom_two st.cwd _ _
  have hLres : resolveFrom st.cwd (tdR ++ [.normal agentsUpper]) =
      resolveFrom st.cwd tdR ++ [agentsUpper] := resolveFrom_snoc_normal st.cwd tdR _
  have hGL : st.cwd ++ [conventionsName, agentsLower] ≠ resolveFrom st.cwd tdR ++ [agentsUpper] := by
    rw [show st.cwd ++ [conventionsName, agentsLower] =
      (st.cwd ++ [conventionsName]) ++ [agentsLower] from by simp]
    exact append_last_ne (by decide)
  unfold agentsStep at h
  rcases hG with hG | hG
  case inr =>
    -- conventions/agents absent: the branch is skipped
    rw [if_neg (by simp [existsAt, nodeAt, hGres, hG])] at h
    have h2 : st = st2 := by simpa [pure, Except.pure] using h
    exact ⟨by rw [← h2], Or.inl ⟨hG, h2.symm⟩⟩
  case inl =>
    -- conventions/agents is a directory: the branch runs
    rw [if_pos (by simp [existsAt, nodeAt, hGres, hG])] at h
    rw [except_bind_ok] at h
    obtain ⟨st4, h4, h5⟩ := h
    rw [except_bind_ok] at h5
    obtain ⟨ab, hcan, hsym⟩ := h5
    by_cases hcond : (existsAt st (tdR ++ [.normal agentsUpper]) ||
        isSymlinkAt st (tdR ++ [.normal agentsUpper])) = true
    · rw [if_pos hcond] at h4
      by_cases hdir : (isDirAt st (tdR ++ [.normal agentsUpper]) &&
          !isSymlinkAt st (tdR ++ [.normal agentsUpper])) = true
      · -- remove_dir_all branch
        rw [if_pos hdir] at h4
        obtain ⟨hcwd4, _, hdesc4⟩ := removeDirAllAt_ok_inv h4
        simp only [hLres] at hdesc4
        by_cases hpreG : pre (resolveFrom st.cwd tdR ++ [agentsUpper])
            (st.cwd ++ [conventionsName, agentsLower])
        · -- the removal would have destroyed conventions/agents: canonicalize fails
          have hnone : lookupFS st4.fs
              (resolveFrom st4.cwd [.normal conventionsName, .normal agentsLower]) = none := by
            rw [hcwd4, hGres, hdesc4, if_pos hpreG]
          rw [canonicalizeAt_of_none hnone] at hcan
          exact absurd hcan (by simp)
        · have hdir4 : lookupFS st4.fs
              (resolveFrom st4.cwd [.normal conventionsName, .normal agentsLower]) =
              some .dir := by
            rw [hcwd4, hGres, hdesc4, if_neg hpreG]
            exact hG
          rw [canonicalizeAt_of_dir hdir4] at hcan
          injection hcan with hab
          obtain ⟨hcwd2, _, _, _, hdesc2⟩ := symlinkAt_ok_inv hsym
          simp only [hcwd4, hLres] at hdesc2
          have hprecwd : ¬ pre (resolveFrom st.cwd tdR ++ [agentsUpper]) st.cwd := by
            intro hp
            exact hpreG (pre_trans hp (pre_append st.cwd _))
          refine ⟨by rw [hcwd2, hcwd4], Or.inr ⟨hG, ?_, Or.inr ⟨hprecwd, ?_⟩⟩⟩
          · rw [hdesc2, if_pos rfl, ← hab, hcwd4, hGres]
          · intro q hq
            rw [hdesc2 q, if_neg (fun hh => hq (by rw [hh]; exact pre_refl _)), hdesc4 q,
              if_neg hq]
      · -- remove_file branch
        rw [if_neg hdir] at h4
        obtain ⟨hcwd4, hnd4, _, hdesc4⟩ := removeFileAt_ok_inv h4
        simp only [hLres] at hnd4 hdesc4
        have hdir4 : lookupFS st4.fs
            (resolveFrom st4.cwd [.normal conventionsName, .normal agentsLower]) =
            some .dir := by
          rw [hcwd4, hGres, hdesc4, if_neg hGL]
          exact hG
        rw [canonicalizeAt_of_dir hdir4] at hcan
        injection hcan with hab
        obtain ⟨hcwd2, _, _, _, hdesc2⟩ := symlinkAt_ok_inv hsym
        simp only [hcwd4, hLres] at hdesc2
        refine ⟨by rw [hcwd2, hcwd4], Or.inr ⟨hG, ?_, Or.inl ⟨hnd4, ?_⟩⟩⟩
        · rw [hdesc2, if_pos rfl, ← hab, hcwd4, hGres]
        · intro q hq
          rw [hdesc2 q, if_neg hq, hdesc4 q, if_neg hq]
    · -- nothing pre-existing at target_dir/AGENTS
      rw [if_neg hcond] at h4
      have h4' : st = st4 := by simpa [pure, Except.pure] using h4
      subst h4'
      simp only [Bool.or_eq_true, not_or, Bool.not_eq_true] at hcond
      have hnone : lookupFS st.fs
          (resolveFrom st.cwd (tdR ++ [.normal agentsUpper])) = none :=
        lookup_none_of_not_exists_not_symlink hcond.1 hcond.2
      rw [hLres] at hnone
      have hdir4 : lookupFS st.fs
          (resolveFrom st.cwd [.normal conventionsName, .normal agentsLower]) = some .dir := by
        rw [hGres]; exact hG
      rw [canonicalizeAt_of_dir hdir4] at hcan
      injection hcan with hab
      obtain ⟨hcwd2, _, _, _, hdesc2⟩ := symlinkAt_ok_inv hsym
      simp only [hLres] at hdesc2
      refine ⟨hcwd2, Or.inr ⟨hG, ?_, Or.inl ⟨by rw [hnone]; simp, ?_⟩⟩⟩
      · rw [hdesc2, if_pos rfl, ← hab, hGres]
      · intro q hq
        rw [hdesc2 q, if_neg hq]

/-! ## Lemmas about `combine_convention_files` success and its filename -/

theorem foldlM_combineStep_names :
    ∀ (files : List ConventionFile) (st : FSState) (acc r : List (List Char) × List Char),
      files.foldlM (combineStep st) acc = .ok r →
      r.1 = acc.1 ++ files.map (fun f => removeMd f.name)
  | [], st, acc, r, h => by
    have h2 : acc = r := by simpa [List.foldlM, pure, Except.pure] using h
    rw [← h2]
    simp
  | f :: t, st, acc, r, h => by
    simp only [List.foldlM] at h
    rw [except_bind_ok] at h
    obtain ⟨acc1, h1, h2⟩ := h
    unfold combineStep at h1
    rw [except_bind_ok] at h1
    obtain ⟨c, _, hpure⟩ := h1
    have hacc1 : acc1 = (acc.1 ++ [removeMd f.name], acc.2 ++ c ++ sepFor c) := by
      have := hpure
      simp only [pure, Except.pure, Except.ok.injEq] at this
      exact this.symm
    rw [foldlM_combineStep_names t st acc1 r h2, hacc1]
    simp

theorem combine_ok_fname {st : FSState} {files : List ConventionFile}
    {p : List Char × List Char}
    (h : combine_convention_files st files = .ok p) : p.2 = combinedFilenameOf files := by
  unfold combine_convention_files at h
  rw [except_bind_ok] at h
  obtain ⟨acc, hacc, hp⟩ := h
  have h2 : (trimEnd acc.2, joinSep ['_'] acc.1 ++ ".md".toList) = p := by
    simpa [pure, Except.pure] using hp
  rw [← h2]
  unfold combinedFilenameOf
  rw [foldlM_combineStep_names files st ([], []) acc hacc]
  simp

theorem readAllContents_total (st : FSState) :
    ∀ files : List ConventionFile,
      (∀ f ∈ files, ∃ c, readToStringAt st f.path = .ok c) →
      ∃ cs, readAllContents st files = .ok cs
  | [], _ => ⟨[], rfl⟩
  | f :: t, h => by
    obtain ⟨c, hc⟩ := h f (List.mem_cons_self f t)
    obtain ⟨cs, hcs⟩ := readAllContents_total st t (fun g hg => h g (List.mem_cons_of_mem f hg))
    exact ⟨c :: cs, by simp [readAllContents, hc, hcs, Bind.bind, Except.bind, pure, Except.pure]⟩

/-- Forward success of combination: if every selected file reads, combination
succeeds with the derived filename. -/
theorem combine_forward {st : FSState} {files : List ConventionFile}
    (hreads : ∀ f ∈ files, ∃ c, readToStringAt st f.path = .ok c) :
    ∃ text, combine_convention_files st files = .ok (text, combinedFilenameOf files) := by
  obtain ⟨cs, hcs⟩ := readAllContents_total st files hreads
  exact ⟨_, combine_convention_files_eq st files cs hcs⟩

/-! ## Forward lemmas for the modelled operations -/

theorem createDirStep_of_dir {st : FSState} {p : APath}
    (h : lookupFS st.fs p = some .dir) : createDirStep st p = .ok st := by
  unfold createDirStep
  rw [h]

theorem createDirAllAt_noop {st : FSState} {r : RPath}
    (h : ∀ q, q ≠ [] → pre q (resolveFrom st.cwd r) → lookupFS st.fs q = some .dir) :
    createDirAllAt st r = .ok st := by
  unfold createDirAllAt
  have hall : ∀ q ∈ prefixesOf (resolveFrom st.cwd r), lookupFS st.fs q = some .dir := by
    intro q hq
    obtain ⟨h1, h2⟩ := mem_prefixesOf.mp hq
    exact h q h1 h2
  revert hall
  generalize prefixesOf (resolveFrom st.cwd r) = ps
  intro hall
  induction ps with
  | nil => rfl
  | cons p t ih =>
    simp only [List.foldlM]
    rw [createDirStep_of_dir (hall p (List.mem_cons_self p t))]
    show (Except.ok st >>= fun b => t.foldlM createDirStep b) = .ok st
    rw [show (Except.ok st >>= fun b => t.foldlM createDirStep b) =
      t.foldlM createDirStep st from rfl]
    exact ih (fun q hq => hall q (List.mem_cons_of_mem p hq))

theorem not_pre_of_length {p q : APath} (h : q.length < p.length) : ¬ pre p q :=
  fun hp => absurd (pre_length_le hp) (by omega)

theorem self_ne_snoc {x : APath} {a : List Char} : x ≠ x ++ [a] := by
  intro h
  have h2 := congrArg List.length h
  simp at h2

/-- The complete inversion of a successful `compile_files` run, under two
model-scope hypotheses: the combined file's path does not currently hold a
symlink, and `conventions/agents` is a real directory or absent.  Exports
everything claims C2 and C3 need: the combined file written, every prefix of
`combined_conventions/` a directory, the three named symlinks, the target
directory a directory, `conventions/agents` untouched, the `AGENTS` symlink,
and a frame property describing every other path. -/
theorem compile_files_ok_inv (st st' : FSState) (files : List ConventionFile) (tdR : RPath)
    (hok : compile_files st files tdR = .ok st')
    (hnosym : ∀ t, lookupFS st.fs (st.cwd ++ [ccName, combinedFilenameOf files]) ≠
      some (.symlink t))
    (hGshape : lookupFS st.fs (st.cwd ++ [conventionsName, agentsLower]) = some .dir ∨
               lookupFS st.fs (st.cwd ++ [conventionsName, agentsLower]) = none) :
    st'.cwd = st.cwd ∧
    (∃ text, combine_convention_files st files = .ok (text, combinedFilenameOf files) ∧
      lookupFS st'.fs (st.cwd ++ [ccName, combinedFilenameOf files]) = some (.file text)) ∧
    (∀ q, q ≠ [] → pre q (st.cwd ++ [ccName]) → lookupFS st'.fs q = some .dir) ∧
    (∀ n ∈ symlinkNames,
      lookupFS st'.fs (resolveFrom st.cwd tdR ++ [n]) =
        some (.symlink (st.cwd ++ [ccName, combinedFilenameOf files]))) ∧
    (resolveFrom st.cwd tdR = [] ∨ lookupFS st'.fs (resolveFrom st.cwd tdR) = some .dir) ∧
    lookupFS st'.fs (st.cwd ++ [conventionsName, agentsLower]) =
      lookupFS st.fs (st.cwd ++ [conventionsName, agentsLower]) ∧
    (lookupFS st.fs (st.cwd ++ [conventionsName, agentsLower]) = some .dir →
      lookupFS st'.fs (resolveFrom st.cwd tdR ++ [agentsUpper]) =
        some (.symlink (st.cwd ++ [conventionsName, agentsLower]))) ∧
    ((∀ q, q ≠ st.cwd ++ [ccName, combinedFilenameOf files] →
        (∀ n ∈ symlinkNames, q ≠ resolveFrom st.cwd tdR ++ [n]) →
        q ≠ resolveFrom st.cwd tdR ++ [agentsUpper] →
        ¬ (q ≠ [] ∧ pre q (st.cwd ++ [ccName]) ∧ lookupFS st.fs q = none) →
        lookupFS st'.fs q = lookupFS st.fs q) ∨
     (¬ pre (resolveFrom st.cwd tdR ++ [agentsUpper]) st.cwd ∧
      (∀ q, q ≠ st.cwd ++ [ccName, combinedFilenameOf files] →
        (∀ n ∈ symlinkNames, q ≠ resolveFrom st.cwd tdR ++ [n]) →
        ¬ pre (resolveFrom st.cwd tdR ++ [agentsUpper]) q →
        ¬ (q ≠ [] ∧ pre q (st.cwd ++ [ccName]) ∧ lookupFS st.fs q = none) →
        lookupFS st'.fs q = lookupFS st.fs q))) := by
  -- unpack the chain
  unfold compile_files at hok
  rw [except_bind_ok] at hok
  obtain ⟨p, hcomb, hok⟩ := hok
  obtain ⟨text, fn2⟩ := p
  have hfname : fn2 = combinedFilenameOf files := combine_ok_fname hcomb
  subst hfname
  rw [except_bind_ok] at hok
  obtain ⟨st1, hcd, hok⟩ := hok
  rw [except_bind_ok] at hok
  obtain ⟨st2, hwr, hok⟩ := hok
  rw [except_bind_ok] at hok
  obtain ⟨st3, hfold, hagents⟩ := hok
  -- abbreviating equations
  have hlenA : (st.cwd ++ [ccName, combinedFilenameOf files]).length = st.cwd.length + 2 := by
    simp
  have hlenCC : (st.cwd ++ [ccName]).length = st.cwd.length + 1 := by simp
  -- step 1: create_dir_all combined_conventions
  obtain ⟨hcwd1, hun1, hmem1⟩ := createDirAllAt_ok_inv hcd
  rw [show resolveFrom st.cwd [.normal ccName] = st.cwd ++ [ccName] from rfl] at hun1 hmem1
  have hApre : ¬ ((st.cwd ++ [ccName, combinedFilenameOf files]) ≠ [] ∧
      pre (st.cwd ++ [ccName, combinedFilenameOf files]) (st.cwd ++ [ccName])) := by
    rintro ⟨_, hp⟩
    exact not_pre_of_length (by omega) hp
  have hA1 : lookupFS st1.fs (st.cwd ++ [ccName, combinedFilenameOf files]) =
      lookupFS st.fs (st.cwd ++ [ccName, combinedFilenameOf files]) := hun1 _ hApre
  -- step 2: write the combined file
  have hres1 : resolveFrom st1.cwd [.normal ccName, .normal (combinedFilenameOf files)] =
      st.cwd ++ [ccName, combinedFilenameOf files] := by
    rw [hcwd1]
    exact resolveFrom_two st.cwd _ _
  have hns1 : ∀ t, lookupFS st1.fs
      (resolveFrom st1.cwd [.normal ccName, .normal (combinedFilenameOf files)]) ≠
      some (.symlink t) := by
    rw [hres1, hA1]
    exact hnosym
  obtain ⟨hcwd2, hpar2, hdesc2⟩ := writeFileAt_ok_inv hns1 hwr
  rw [hres1] at hdesc2
  have hcwd2' : st2.cwd = st.cwd := by rw [hcwd2, hcwd1]
  have hA2 : lookupFS st2.fs (st.cwd ++ [ccName, combinedFilenameOf files]) =
      some (.file text) := by
    rw [hdesc2, if_pos rfl]
  have hprefix2 : ∀ q, q ≠ [] → pre q (st.cwd ++ [ccName]) →
      lookupFS st2.fs q = some .dir := by
    intro q h1 h2
    have hqA : q ≠ st.cwd ++ [ccName, combinedFilenameOf files] := by
      intro hh
      have := pre_length_le h2
      rw [hh, hlenA] at this
      omega
    rw [hdesc2, if_neg hqA]
    exact (hmem1 q h1 h2).1
  -- step 3: the three named symlinks
  simp only [symlinkNames, List.foldlM] at hfold
  rw [except_bind_ok] at hfold
  obtain ⟨sA, hs1, hfold⟩ := hfold
  rw [except_bind_ok] at hfold
  obtain ⟨sB, hs2, hfold⟩ := hfold
  rw [except_bind_ok] at hfold
  obtain ⟨sC, hs3, hfold⟩ := hfold
  have hsC : sC = st3 := by simpa [List.foldlM, pure, Except.pure] using hfold
  subst hsC
  -- first iteration
  have hA2' : lookupFS st2.fs
      (resolveFrom st2.cwd [.normal ccName, .normal (combinedFilenameOf files)]) =
      some (.file text) := by
    rw [hcwd2', resolveFrom_two]
    exact hA2
  obtain ⟨hcwdA, hneA1, hnd1, hparL1, hdescA⟩ := stepSymlinkName_ok_inv hA2' hs1
  rw [hcwd2'] at hcwdA
  simp only [hcwd2', resolveFrom_two] at hneA1 hnd1 hparL1 hdescA
  have hAsA : lookupFS sA.fs (st.cwd ++ [ccName, combinedFilenameOf files]) =
      some (.file text) := by
    rw [hdescA, if_neg (fun hh => hneA1 hh.symm)]
    exact hA2
  -- second iteration
  have hAsA' : lookupFS sA.fs
      (resolveFrom sA.cwd [.normal ccName, .normal (combinedFilenameOf files)]) =
      some (.file text) := by
    rw [hcwdA, resolveFrom_two]
    exact hAsA
  obtain ⟨hcwdB, hneA2, hnd2, hparL2, hdescB⟩ := stepSymlinkName_ok_inv hAsA' hs2
  rw [hcwdA] at hcwdB
  simp only [hcwdA, resolveFrom_two] at hneA2 hnd2 hparL2 hdescB
  have hAsB : lookupFS sB.fs (st.cwd ++ [ccName, combinedFilenameOf files]) =
      some (.file text) := by
    rw [hdescB, if_neg (fun hh => hneA2 hh.symm)]
    exact hAsA
  -- third iteration
  have hAsB' : lookupFS sB.fs
      (resolveFrom sB.cwd [.normal ccName, .normal (combinedFilenameOf files)]) =
      some (.file text) := by
    rw [hcwdB, resolveFrom_two]
    exact hAsB
  obtain ⟨hcwdC, hneA3, hnd3, hparL3, hdescC⟩ := stepSymlinkName_ok_inv hAsB' hs3
  rw [hcwdB] at hcwdC
  simp only [hcwdB, resolveFrom_two] at hneA3 hnd3 hparL3 hdescC
  have hcwd3 : sC.cwd = st.cwd := hcwdC
  have hAst3 : lookupFS sC.fs (st.cwd ++ [ccName, combinedFilenameOf files]) =
      some (.file text) := by
    rw [hdescC, if_neg (fun hh => hneA3 hh.symm)]
    exact hAsB
  -- name disequalities among the three links
  have hne12 : resolveFrom st.cwd tdR ++ ["CONVENTIONS.md".toList] ≠
      resolveFrom st.cwd tdR ++ ["AGENTS.md".toList] := append_last_ne (by decide)
  have hne13 : resolveFrom st.cwd tdR ++ ["CONVENTIONS.md".toList] ≠
      resolveFrom st.cwd tdR ++ ["CLAUDE.md".toList] := append_last_ne (by decide)
  have hne23 : resolveFrom st.cwd tdR ++ ["AGENTS.md".toList] ≠
      resolveFrom st.cwd tdR ++ ["CLAUDE.md".toList] := append_last_ne (by decide)
  -- final values of the three links in st3
  have hL1st3 : lookupFS sC.fs (resolveFrom st.cwd tdR ++ ["CONVENTIONS.md".toList]) =
      some (.symlink (st.cwd ++ [ccName, combinedFilenameOf files])) := by
    rw [hdescC, if_neg hne13, hdescB, if_neg hne12, hdescA, if_pos rfl]
  have hL2st3 : lookupFS sC.fs (resolveFrom st.cwd tdR ++ ["AGENTS.md".toList]) =
      some (.symlink (st.cwd ++ [ccName, combinedFilenameOf files])) := by
    rw [hdescC, if_neg hne23, hdescB, if_pos rfl]
  have hL3st3 : lookupFS sC.fs (resolveFrom st.cwd tdR ++ ["CLAUDE.md".toList]) =
      some (.symlink (st.cwd ++ [ccName, combinedFilenameOf files])) := by
    rw [hdescC, if_pos rfl]
  have hframe3 : ∀ q, q ≠ resolveFrom st.cwd tdR ++ ["CONVENTIONS.md".toList] →
      q ≠ resolveFrom st.cwd tdR ++ ["AGENTS.md".toList] →
      q ≠ resolveFrom st.cwd tdR ++ ["CLAUDE.md".toList] →
      lookupFS sC.fs q = lookupFS st2.fs q := by
    intro q h1 h2 h3
    rw [hdescC, if_neg h3, hdescB, if_neg h2, hdescA, if_neg h1]
  -- the target directory is a directory (or the root) in st2
  have hTD2 : resolveFrom st.cwd tdR = [] ∨
      lookupFS st2.fs (resolveFrom st.cwd tdR) = some .dir := by
    rw [parentIsDir_iff] at hparL1
    rcases hparL1 with hp | hp
    · left
      rw [dropLast_snoc] at hp
      exact hp
    · right
      rw [dropLast_snoc] at hp
      exact hp
  -- conventions/agents is untouched up to st3
  have hGA : st.cwd ++ [conventionsName, agentsLower] ≠
      st.cwd ++ [ccName, combinedFilenameOf files] := by
    rw [show st.cwd ++ [conventionsName, agentsLower] =
      (st.cwd ++ [conventionsName]) ++ [agentsLower] from by simp,
      show st.cwd ++ [ccName, combinedFilenameOf files] =
      (st.cwd ++ [ccName]) ++ [combinedFilenameOf files] from by simp]
    exact append_last_ne (ne_combinedFilenameOf files (by decide))
  have hGL : ∀ n ∈ symlinkNames,
      st.cwd ++ [conventionsName, agentsLower] ≠ resolveFrom st.cwd tdR ++ [n] := by
    intro n hn
    rw [show st.cwd ++ [conventionsName, agentsLower] =
      (st.cwd ++ [conventionsName]) ++ [agentsLower] from by simp]
    fin_cases hn <;> exact append_last_ne (by decide)
  have hGst3 : lookupFS sC.fs (st.cwd ++ [conventionsName, agentsLower]) =
      lookupFS st.fs (st.cwd ++ [conventionsName, agentsLower]) := by
    rw [hframe3 _ (hGL _ (by simp [symlinkNames])) (hGL _ (by simp [symlinkNames]))
      (hGL _ (by simp [symlinkNames])), hdesc2, if_neg hGA]
    refine hun1 _ ?_
    rintro ⟨_, hp⟩
    refine not_pre_of_length ?_ hp
    rw [hlenCC]
    simp
  -- apply the agents-step inversion
  have hG3 : lookupFS sC.fs (sC.cwd ++ [conventionsName, agentsLower]) = some .dir ∨
      lookupFS sC.fs (sC.cwd ++ [conventionsName, agentsLower]) = none := by
    rw [hcwd3, hGst3]
    exact hGshape
  obtain ⟨hcwdF, hcases⟩ := agentsStep_ok_inv hG3 hagents
  rw [hcwd3] at hcwdF
  simp only [hcwd3, hGst3] at hcases
  -- shared disequalities
  have hLA_ne_A : resolveFrom st.cwd tdR ++ [agentsUpper] ≠
      st.cwd ++ [ccName, combinedFilenameOf files] := by
    rw [show st.cwd ++ [ccName, combinedFilenameOf files] =
      (st.cwd ++ [ccName]) ++ [combinedFilenameOf files] from by simp]
    exact append_last_ne (ne_combinedFilenameOf files (by decide))
  have hLA_ne_L : ∀ n ∈ symlinkNames, resolveFrom st.cwd tdR ++ [agentsUpper] ≠
      resolveFrom st.cwd tdR ++ [n] := by
    intro n hn
    fin_cases hn <;> exact append_last_ne (by decide)
  have hLA_ne_G : resolveFrom st.cwd tdR ++ [agentsUpper] ≠
      st.cwd ++ [conventionsName, agentsLower] := by
    rw [show st.cwd ++ [conventionsName, agentsLower] =
      (st.cwd ++ [conventionsName]) ++ [agentsLower] from by simp]
    exact append_last_ne (by decide)
  have hLA_ne_CC : resolveFrom st.cwd tdR ++ [agentsUpper] ≠ st.cwd ++ [ccName] :=
    append_last_ne (by decide)
  -- every nonempty prefix of combined_conventions is a directory in sC
  have hprefixsC : ∀ q, q ≠ [] → pre q (st.cwd ++ [ccName]) →
      lookupFS sC.fs q = some .dir := by
    intro q h1 h2
    have hq1 : q ≠ resolveFrom st.cwd tdR ++ ["CONVENTIONS.md".toList] := by
      intro hh
      have hv := hprefix2 q h1 h2
      rw [hh] at hv
      exact hnd1 hv
    have hq2 : q ≠ resolveFrom st.cwd tdR ++ ["AGENTS.md".toList] := by
      intro hh
      have hv : lookupFS sA.fs q = some .dir := by
        rw [hdescA, if_neg (by rw [hh]; exact fun hc => hne12 hc.symm)]
        exact hprefix2 q h1 h2
      rw [hh] at hv
      exact hnd2 hv
    have hq3 : q ≠ resolveFrom st.cwd tdR ++ ["CLAUDE.md".toList] := by
      intro hh
      have hv : lookupFS sB.fs q = some .dir := by
        rw [hdescB, if_neg (by rw [hh]; exact fun hc => hne23 hc.symm),
          hdescA, if_neg (by rw [hh]; exact fun hc => hne13 hc.symm)]
        exact hprefix2 q h1 h2
      rw [hh] at hv
      exact hnd3 hv
    rw [hframe3 q hq1 hq2 hq3]
    exact hprefix2 q h1 h2
  have hTDsC : resolveFrom st.cwd tdR = [] ∨
      lookupFS sC.fs (resolveFrom st.cwd tdR) = some .dir := by
    rcases hTD2 with h | h
    · exact Or.inl h
    · right
      rw [hframe3 _ self_ne_snoc self_ne_snoc self_ne_snoc]
      exact h
  -- the composed frame down to the initial state
  have hchain : ∀ q, q ≠ st.cwd ++ [ccName, combinedFilenameOf files] →
      (∀ n ∈ symlinkNames, q ≠ resolveFrom st.cwd tdR ++ [n]) →
      ¬ (q ≠ [] ∧ pre q (st.cwd ++ [ccName]) ∧ lookupFS st.fs q = none) →
      lookupFS sC.fs q = lookupFS st.fs q := by
    intro q hqA hqL hqpre
    rw [hframe3 q (hqL _ (by simp [symlinkNames])) (hqL _ (by simp [symlinkNames]))
      (hqL _ (by simp [symlinkNames])), hdesc2, if_neg hqA]
    by_cases hq : q ≠ [] ∧ pre q (st.cwd ++ [ccName])
    · obtain ⟨hmemd, hmemo⟩ := hmem1 q hq.1 hq.2
      rcases hmemo with ho | ho
      · exact absurd ⟨hq.1, hq.2, ho⟩ hqpre
      · rw [hmemd, ho]
    · exact hun1 q hq
  -- assemble, by cases on what the agents block did
  rcases hcases with ⟨hGnone, hsteq⟩ | ⟨hGdir, hLAval, hframeA⟩
  · subst hsteq
    refine ⟨hcwdF, ⟨text, hcomb, hAst3⟩, hprefixsC, ?_, hTDsC, hGst3, ?_, Or.inl ?_⟩
    · intro n hn
      fin_cases hn
      · exact hL1st3
      · exact hL2st3
      · exact hL3st3
    · intro hdirG
      exact absurd (hdirG.symm.trans hGnone) (by simp)
    · intro q hqA hqL _ hqpre
      exact hchain q hqA hqL hqpre
  · rcases hframeA with ⟨hndLA, hfr1⟩ | ⟨hpreC, hfr2⟩
    · -- only the AGENTS link path changed
      have hLAq : ∀ q, lookupFS sC.fs q = some .dir →
          q ≠ resolveFrom st.cwd tdR ++ [agentsUpper] := by
        intro q hv hh
        rw [hh] at hv
        exact hndLA hv
      refine ⟨hcwdF, ⟨text, hcomb, ?_⟩, ?_, ?_, ?_, ?_, fun _ => hLAval, Or.inl ?_⟩
      · rw [hfr1 _ (fun hh => hLA_ne_A hh.symm)]
        exact hAst3
      · intro q h1 h2
        rw [hfr1 q (hLAq q (hprefixsC q h1 h2))]
        exact hprefixsC q h1 h2
      · intro n hn
        rw [hfr1 _ (fun hh => hLA_ne_L n hn hh.symm)]
        fin_cases hn
        · exact hL1st3
        · exact hL2st3
        · exact hL3st3
      · rcases hTDsC with h | h
        · exact Or.inl h
        · right
          rw [hfr1 _ (fun hh => self_ne_snoc hh)]
          exact h
      · rw [hfr1 _ (fun hh => hLA_ne_G hh.symm)]
        exact hGst3
      · intro q hqA hqL hqLA hqpre
        rw [hfr1 q hqLA]
        exact hchain q hqA hqL hqpre
    · -- the AGENTS link path's subtree was removed
      have hnpre_A : ¬ pre (resolveFrom st.cwd tdR ++ [agentsUpper])
          (st.cwd ++ [ccName, combinedFilenameOf files]) := by
        intro hp
        rcases pre_snoc₂_cases hp with h | h | h
        · exact hpreC h
        · exact hLA_ne_CC h
        · exact hLA_ne_A h
      have hnpre_L : ∀ n ∈ symlinkNames,
          ¬ pre (resolveFrom st.cwd tdR ++ [agentsUpper])
            (resolveFrom st.cwd tdR ++ [n]) := by
        intro n hn hp
        rcases pre_snoc_cases hp with h | h
        · exact not_pre_of_length (by simp) h
        · exact hLA_ne_L n hn h
      have hnpre_G : ¬ pre (resolveFrom st.cwd tdR ++ [agentsUpper])
          (st.cwd ++ [conventionsName, agentsLower]) := by
        intro hp
        rcases pre_snoc₂_cases hp with h | h | h
        · exact hpreC h
        · exact append_last_ne (by decide) h
        · exact hLA_ne_G h
      have hnprefx : ∀ q, q ≠ [] → pre q (st.cwd ++ [ccName]) →
          ¬ pre (resolveFrom st.cwd tdR ++ [agentsUpper]) q := by
        intro q h1 h2 hp
        rcases pre_snoc_cases (pre_trans hp h2) with h | h
        · exact hpreC h
        · exact hLA_ne_CC h
      refine ⟨hcwdF, ⟨text, hcomb, ?_⟩, ?_, ?_, ?_, ?_, fun _ => hLAval,
        Or.inr ⟨hpreC, ?_⟩⟩
      · rw [hfr2 _ hnpre_A]
        exact hAst3
      · intro q h1 h2
        rw [hfr2 q (hnprefx q h1 h2)]
        exact hprefixsC q h1 h2
      · intro n hn
        rw [hfr2 _ (hnpre_L n hn)]
        fin_cases hn
        · exact hL1st3
        · exact hL2st3
        · exact hL3st3
      · rcases hTDsC with h | h
        · exact Or.inl h
        · right
          rw [hfr2 _ (not_pre_of_length (by simp))]
          exact h
      · rw [hfr2 _ hnpre_G]
        exact hGst3
      · intro q hqA hqL hqLA hqpre
        rw [hfr2 q hqLA]
        exact hchain q hqA hqL hqpre

/-! ## Claim C2 -/

/-- Claim C2: after a successful run of `compile_files` (the symlink
publication step), the combined text has been written to
`combined_conventions/<derived-name>.md`, and each of the three fixed names
in the target directory holds a symlink (any pre-existing file or symlink
having been removed) whose target is the canonical absolute path of the
combined file; if the directory `conventions/agents` exists, the target
directory also holds a symlink `AGENTS` to its canonical absolute path.
Model-scope hypotheses: the combined file's path does not already hold a
symlink, and `conventions/agents` is a real directory or absent. -/
theorem c2_symlink_publication (st st' : FSState) (files : List ConventionFile) (tdR : RPath)
    (hok : compile_files st files tdR = .ok st')
    (hnosym : ∀ t, lookupFS st.fs (st.cwd ++ [ccName, combinedFilenameOf files]) ≠
      some (.symlink t))
    (hGshape : lookupFS st.fs (st.cwd ++ [conventionsName, agentsLower]) = some .dir ∨
               lookupFS st.fs (st.cwd ++ [conventionsName, agentsLower]) = none) :
    ∃ text, combine_convention_files st files = .ok (text, combinedFilenameOf files) ∧
      lookupFS st'.fs (st.cwd ++ [ccName, combinedFilenameOf files]) = some (.file text) ∧
      (∀ n ∈ symlinkNames,
        lookupFS st'.fs (resolveFrom st.cwd tdR ++ [n]) =
          some (.symlink (st.cwd ++ [ccName, combinedFilenameOf files]))) ∧
      (lookupFS st.fs (st.cwd ++ [conventionsName, agentsLower]) = some .dir →
        lookupFS st'.fs (resolveFrom st.cwd tdR ++ [agentsUpper]) =
          some (.symlink (st.cwd ++ [conventionsName, agentsLower]))) := by
  obtain ⟨_, ⟨text, hc, hA⟩, _, hL, _, _, hAg, _⟩ :=
    compile_files_ok_inv st st' files tdR hok hnosym hGshape
  exact ⟨text, hc, hA, hL, hAg⟩

def exceptIsOk {α : Type} : Except Err α → Bool
  | .ok _ => true
  | .error _ => false

def c2st : FSState :=
  { fs := [ (["h".toList], .dir)
          , (["h".toList, "conventions".toList], .dir)
          , (["h".toList, "conventions".toList, "a.md".toList], .file "x".toList)
          , (["h".toList, "conventions".toList, "agents".toList], .dir)
          , (["h".toList, "t".toList], .dir) ]
  , cwd := ["h".toList] }

def c2files : List ConventionFile :=
  [⟨"a.md".toList, [.normal "conventions".toList, .normal "a.md".toList]⟩]

def c2td : RPath := [.normal "t".toList]

/-- Witness for C2 at a concrete filesystem. -/
theorem c2_witness :
    ∃ st' text,
      compile_files c2st c2files c2td = .ok st' ∧
      combine_convention_files c2st c2files = .ok (text, combinedFilenameOf c2files) ∧
      lookupFS st'.fs (c2st.cwd ++ [ccName, combinedFilenameOf c2files]) =
        some (.file text) ∧
      (∀ n ∈ symlinkNames,
        lookupFS st'.fs (resolveFrom c2st.cwd c2td ++ [n]) =
          some (.symlink (c2st.cwd ++ [ccName, combinedFilenameOf c2files]))) ∧
      lookupFS st'.fs (resolveFrom c2st.cwd c2td ++ [agentsUpper]) =
        some (.symlink (c2st.cwd ++ [conventionsName, agentsLower])) := by
  have hisok : exceptIsOk (compile_files c2st c2files c2td) = true := by decide
  cases heq : compile_files c2st c2files c2td with
  | error e =>
    rw [heq] at hisok
    exact absurd hisok (by simp [exceptIsOk])
  | ok s =>
    obtain ⟨text, hc, hA, hL, hAg⟩ := c2_symlink_publication c2st s c2files c2td heq
      (by intro t
          rw [show lookupFS c2st.fs (c2st.cwd ++ [ccName, combinedFilenameOf c2files]) =
            none from by decide]
          exact fun h => Option.noConfusion h)
      (Or.inl (by decide))
    exact ⟨s, text, rfl, hc, hA, hL, hAg (by decide)⟩

/-! ## Forward computation lemmas for the rerun (claim C3) -/

theorem removeFileAt_of_symlink {st : FSState} {r : RPath} {t : APath}
    (h : lookupFS st.fs (resolveFrom st.cwd r) = some (.symlink t)) :
    removeFileAt st r = .ok { st with fs := eraseKey st.fs (resolveFrom st.cwd r) } := by
  unfold removeFileAt nodeAt
  rw [h]

theorem symlinkAt_of (o : APath) {st : FSState} {linkR : RPath}
    (h1 : lookupFS st.fs (resolveFrom st.cwd linkR) = none)
    (h2 : resolveFrom st.cwd linkR ≠ [])
    (h3 : parentIsDir st.fs (resolveFrom st.cwd linkR) = true) :
    symlinkAt st o linkR =
      .ok { st with fs := setKey st.fs (resolveFrom st.cwd linkR) (.symlink o) } := by
  unfold symlinkAt
  rw [h1]
  rw [if_pos (by simp [h2, h3])]

theorem writeFileAt_of_file {st : FSState} {r : RPath} {c0 content : List Char}
    (h : lookupFS st.fs (resolveFrom st.cwd r) = some (.file c0))
    (hp : parentIsDir st.fs (resolveFrom st.cwd r) = true) :
    writeFileAt st r content =
      .ok { st with fs := setKey st.fs (resolveFrom st.cwd r) (.file content) } := by
  unfold writeFileAt
  rw [h]
  show (if parentIsDir st.fs (resolveFrom st.cwd r) = true then _ else _) = _
  rw [if_pos hp]

theorem existsAt_of_symlink {st : FSState} {r : RPath} {t : APath}
    (h : lookupFS st.fs (resolveFrom st.cwd r) = some (.symlink t)) :
    existsAt st r = (lookupFS st.fs t).isSome := by
  unfold existsAt nodeAt
  rw [h]

theorem isSymlinkAt_of_symlink {st : FSState} {r : RPath} {t : APath}
    (h : lookupFS st.fs (resolveFrom st.cwd r) = some (.symlink t)) :
    isSymlinkAt st r = true := by
  unfold isSymlinkAt nodeAt
  rw [h]

theorem existsAt_of_dir {st : FSState} {r : RPath}
    (h : lookupFS st.fs (resolveFrom st.cwd r) = some .dir) :
    existsAt st r = true := by
  unfold existsAt nodeAt
  rw [h]

theorem existsAt_of_none {st : FSState} {r : RPath}
    (h : lookupFS st.fs (resolveFrom st.cwd r) = none) :
    existsAt st r = false := by
  unfold existsAt nodeAt
  rw [h]

theorem readToStringAt_of_file {st : FSState} {r : RPath} {c : List Char}
    (h : lookupFS st.fs (resolveFrom st.cwd r) = some (.file c)) :
    readToStringAt st r = .ok c := by
  unfold readToStringAt nodeAt
  rw [h]

theorem readToStringAt_of_symlink_file {st : FSState} {r : RPath} {t : APath} {c : List Char}
    (h : lookupFS st.fs (resolveFrom st.cwd r) = some (.symlink t))
    (h2 : lookupFS st.fs t = some (.file c)) :
    readToStringAt st r = .ok c := by
  unfold readToStringAt nodeAt
  rw [h]
  show (match lookupFS st.fs t with
    | some (.file c) => Except.ok c
    | _ => Except.error Err.readFailed) = _
  rw [h2]

/-- Forward execution of one symlink-loop iteration when the link path holds
a symlink to the (regular-file) combined path and the target directory is a
directory (or the root). -/
theorem stepSymlinkName_ok_of {st : FSState} {combinedRel tdR : RPath} {n : List Char}
    {c : List Char}
    (hA : lookupFS st.fs (resolveFrom st.cwd combinedRel) = some (.file c))
    (hL : lookupFS st.fs (resolveFrom st.cwd tdR ++ [n]) =
      some (.symlink (resolveFrom st.cwd combinedRel)))
    (hTD : resolveFrom st.cwd tdR = [] ∨
      lookupFS st.fs (resolveFrom st.cwd tdR) = some .dir) :
    ∃ st2, stepSymlinkName combinedRel tdR st n = .ok st2 ∧
      st2.cwd = st.cwd ∧
      ∀ q, lookupFS st2.fs q =
        if q = resolveFrom st.cwd tdR ++ [n]
        then some (.symlink (resolveFrom st.cwd combinedRel))
        else lookupFS st.fs q := by
  have hres : resolveFrom st.cwd (tdR ++ [.normal n]) = resolveFrom st.cwd tdR ++ [n] :=
    resolveFrom_snoc_normal st.cwd tdR n
  have hLA : resolveFrom st.cwd tdR ++ [n] ≠ resolveFrom st.cwd combinedRel := by
    intro hh
    rw [hh] at hL
    exact Node.noConfusion (Option.some.inj (hA.symm.trans hL))
  have hcond : (existsAt st (tdR ++ [.normal n]) || isSymlinkAt st (tdR ++ [.normal n])) =
      true := by
    rw [isSymlinkAt_of_symlink (by rw [hres]; exact hL)]
    simp
  set W : FSState :=
    { st with fs := eraseKey st.fs (resolveFrom st.cwd (tdR ++ [.normal n])) } with hWdef
  have hA1 : lookupFS W.fs (resolveFrom W.cwd combinedRel) = some (.file c) := by
    show lookupFS (eraseKey st.fs (resolveFrom st.cwd (tdR ++ [.normal n])))
      (resolveFrom st.cwd combinedRel) = some (.file c)
    rw [lookup_eraseKey, hres, if_neg (fun hh => hLA hh.symm)]
    exact hA
  have hcanW : canonicalizeAt W combinedRel = .ok (resolveFrom W.cwd combinedRel) :=
    canonicalizeAt_of_file hA1
  have hnoneW : lookupFS W.fs (resolveFrom W.cwd (tdR ++ [.normal n])) = none := by
    show lookupFS (eraseKey st.fs (resolveFrom st.cwd (tdR ++ [.normal n])))
      (resolveFrom st.cwd (tdR ++ [.normal n])) = none
    rw [lookup_eraseKey, if_pos rfl]
  have hneW : resolveFrom W.cwd (tdR ++ [.normal n]) ≠ [] := by
    show resolveFrom st.cwd (tdR ++ [.normal n]) ≠ []
    rw [hres]
    exact snoc_ne_nil
  have hparW : parentIsDir W.fs (resolveFrom W.cwd (tdR ++ [.normal n])) = true := by
    show parentIsDir (eraseKey st.fs (resolveFrom st.cwd (tdR ++ [.normal n])))
      (resolveFrom st.cwd (tdR ++ [.normal n])) = true
    rw [parentIsDir_iff, hres, dropLast_snoc, lookup_eraseKey, if_neg self_ne_snoc]
    rcases hTD with h | h
    · exact Or.inl h
    · exact Or.inr h
  have hsymW := symlinkAt_of (resolveFrom W.cwd combinedRel) hnoneW hneW hparW
  have hstep : stepSymlinkName combinedRel tdR st n =
      symlinkAt W (resolveFrom W.cwd combinedRel) (tdR ++ [.normal n]) := by
    unfold stepSymlinkName
    rw [if_pos hcond, removeFileAt_of_symlink (by rw [hres]; exact hL)]
    show (canonicalizeAt W combinedRel >>= fun ab =>
      symlinkAt W ab (tdR ++ [.normal n])) = _
    rw [hcanW]
    rfl
  refine ⟨_, hstep.trans hsymW, rfl, fun q => ?_⟩
  show lookupFS (setKey W.fs (resolveFrom W.cwd (tdR ++ [.normal n]))
    (.symlink (resolveFrom W.cwd combinedRel))) q = _
  rw [lookup_setKey]
  show (if q = resolveFrom st.cwd (tdR ++ [.normal n])
    then some (.symlink (resolveFrom st.cwd combinedRel))
    else lookupFS (eraseKey st.fs (resolveFrom st.cwd (tdR ++ [.normal n]))) q) = _
  rw [lookup_eraseKey, hres]
  by_cases hq : q = resolveFrom st.cwd tdR ++ [n]
  · rw [if_pos hq, if_pos hq]
  · rw [if_neg hq, if_neg hq, if_neg hq]

theorem ok_bind {α β : Type} (a : α) (f : α → Except Err β) :
    (Except.ok a >>= f) = f a := rfl

theorem ext_has_dot {n : List Char} {e : List Char} (h : extFromName n = some e) :
    '.' ∈ n := by
  by_contra hd
  unfold extFromName at h
  rw [if_pos hd] at h
  exact Option.noConfusion h

/-! ## Claim C3 -/

set_option maxHeartbeats 1000000 in
/-- Claim C3: running the symlink-publish step (`compile_files`) a second time
with the identical selection of files and the identical target directory
succeeds, and leaves every created symlink — the three fixed names, and
`AGENTS` when `conventions/agents` exists — pointing at the same target as
after the first run.  The selection is as produced by discovery (paths
`conventions/<name>`, regular files, extension `md`); the same model-scope
hypotheses as claim C2 apply to the initial state. -/
theorem c3_republish_idempotent (st st' : FSState) (files : List ConventionFile) (tdR : RPath)
    (hok : compile_files st files tdR = .ok st')
    (hfiles : ∀ f ∈ files, f.path = [.normal conventionsName, .normal f.name] ∧
      (∃ c, lookupFS st.fs (st.cwd ++ [conventionsName, f.name]) = some (.file c)) ∧
      extFromName f.name = some "md".toList)
    (hnosym : ∀ t, lookupFS st.fs (st.cwd ++ [ccName, combinedFilenameOf files]) ≠
      some (.symlink t))
    (hGshape : lookupFS st.fs (st.cwd ++ [conventionsName, agentsLower]) = some .dir ∨
               lookupFS st.fs (st.cwd ++ [conventionsName, agentsLower]) = none) :
    ∃ st'', compile_files st' files tdR = .ok st'' ∧
      (∀ n ∈ symlinkNames,
        lookupFS st''.fs (resolveFrom st.cwd tdR ++ [n]) =
          lookupFS st'.fs (resolveFrom st.cwd tdR ++ [n])) ∧
      lookupFS st''.fs (resolveFrom st.cwd tdR ++ [agentsUpper]) =
        lookupFS st'.fs (resolveFrom st.cwd tdR ++ [agentsUpper]) := by
  obtain ⟨hcwd', ⟨text1, hcomb1, hA'⟩, hpref', hL', hTD', hG', hAg', hframe'⟩ :=
    compile_files_ok_inv st st' files tdR hok hnosym hGshape
  -- name-based disequalities
  have hLA_ne_A : resolveFrom st.cwd tdR ++ [agentsUpper] ≠
      st.cwd ++ [ccName, combinedFilenameOf files] := by
    rw [show st.cwd ++ [ccName, combinedFilenameOf files] =
      (st.cwd ++ [ccName]) ++ [combinedFilenameOf files] from by simp]
    exact append_last_ne (ne_combinedFilenameOf files (by decide))
  have hLA_ne_L : ∀ n ∈ symlinkNames, resolveFrom st.cwd tdR ++ [agentsUpper] ≠
      resolveFrom st.cwd tdR ++ [n] := by
    intro n hn
    fin_cases hn <;> exact append_last_ne (by decide)
  have hG_ne_A : st.cwd ++ [conventionsName, agentsLower] ≠
      st.cwd ++ [ccName, combinedFilenameOf files] := by
    rw [show st.cwd ++ [conventionsName, agentsLower] =
      (st.cwd ++ [conventionsName]) ++ [agentsLower] from by simp,
      show st.cwd ++ [ccName, combinedFilenameOf files] =
      (st.cwd ++ [ccName]) ++ [combinedFilenameOf files] from by simp]
    exact append_last_ne (ne_combinedFilenameOf files (by decide))
  have hG_ne_L : ∀ n ∈ symlinkNames, st.cwd ++ [conventionsName, agentsLower] ≠
      resolveFrom st.cwd tdR ++ [n] := by
    intro n hn
    rw [show st.cwd ++ [conventionsName, agentsLower] =
      (st.cwd ++ [conventionsName]) ++ [agentsLower] from by simp]
    fin_cases hn <;> exact append_last_ne (by decide)
  -- the three link paths and their values after the first run
  have hL1 := hL' ("CONVENTIONS.md".toList) (by simp [symlinkNames])
  have hL2 := hL' ("AGENTS.md".toList) (by simp [symlinkNames])
  have hL3 := hL' ("CLAUDE.md".toList) (by simp [symlinkNames])
  have hL1A : resolveFrom st.cwd tdR ++ ["CONVENTIONS.md".toList] ≠
      st.cwd ++ [ccName, combinedFilenameOf files] := by
    intro hh
    rw [hh] at hL1
    exact Node.noConfusion (Option.some.inj (hA'.symm.trans hL1))
  have hL2A : resolveFrom st.cwd tdR ++ ["AGENTS.md".toList] ≠
      st.cwd ++ [ccName, combinedFilenameOf files] := by
    intro hh
    rw [hh] at hL2
    exact Node.noConfusion (Option.some.inj (hA'.symm.trans hL2))
  have hL3A : resolveFrom st.cwd tdR ++ ["CLAUDE.md".toList] ≠
      st.cwd ++ [ccName, combinedFilenameOf files] := by
    intro hh
    rw [hh] at hL3
    exact Node.noConfusion (Option.some.inj (hA'.symm.trans hL3))
  -- every selected file still reads in st'
  have hreads : ∀ f ∈ files, ∃ c, readToStringAt st' f.path = .ok c := by
    intro f hf
    obtain ⟨hpath, ⟨c, hc⟩, hext⟩ := hfiles f hf
    have hdot : '.' ∈ f.name := ext_has_dot hext
    have hname_ne : ∀ s : List Char, ¬ ('.' ∈ s) → f.name ≠ s := by
      intro s hs hh
      rw [hh] at hdot
      exact hs hdot
    have hresS : resolveFrom st'.cwd f.path = st.cwd ++ [conventionsName, f.name] := by
      rw [hpath, hcwd']
      exact resolveFrom_two st.cwd _ _
    by_cases h1 : st.cwd ++ [conventionsName, f.name] =
        resolveFrom st.cwd tdR ++ ["CONVENTIONS.md".toList]
    · exact ⟨text1, readToStringAt_of_symlink_file (by rw [hresS, h1]; exact hL1) hA'⟩
    by_cases h2 : st.cwd ++ [conventionsName, f.name] =
        resolveFrom st.cwd tdR ++ ["AGENTS.md".toList]
    · exact ⟨text1, readToStringAt_of_symlink_file (by rw [hresS, h2]; exact hL2) hA'⟩
    by_cases h3 : st.cwd ++ [conventionsName, f.name] =
        resolveFrom st.cwd tdR ++ ["CLAUDE.md".toList]
    · exact ⟨text1, readToStringAt_of_symlink_file (by rw [hresS, h3]; exact hL3) hA'⟩
    -- untouched by the first run
    have hSA : st.cwd ++ [conventionsName, f.name] ≠
        st.cwd ++ [ccName, combinedFilenameOf files] := by
      intro hh
      have h4 := List.append_cancel_left hh
      have h5 : conventionsName = ccName := by injection h4
      exact absurd h5 (by decide)
    have hSLA : st.cwd ++ [conventionsName, f.name] ≠
        resolveFrom st.cwd tdR ++ [agentsUpper] := by
      rw [show st.cwd ++ [conventionsName, f.name] =
        (st.cwd ++ [conventionsName]) ++ [f.name] from by simp]
      exact append_last_ne (hname_ne agentsUpper (by decide))
    have hSpre : ¬ (st.cwd ++ [conventionsName, f.name] ≠ [] ∧
        pre (st.cwd ++ [conventionsName, f.name]) (st.cwd ++ [ccName]) ∧
        lookupFS st.fs (st.cwd ++ [conventionsName, f.name]) = none) := by
      rintro ⟨_, hp, _⟩
      exact not_pre_of_length (by simp) hp
    have hSL : ∀ n ∈ symlinkNames, st.cwd ++ [conventionsName, f.name] ≠
        resolveFrom st.cwd tdR ++ [n] := by
      intro n hn
      fin_cases hn
      · exact h1
      · exact h2
      · exact h3
    have hSval : lookupFS st'.fs (st.cwd ++ [conventionsName, f.name]) = some (.file c) := by
      rcases hframe' with hfr | ⟨hpreC, hfr⟩
      · rw [hfr _ hSA hSL hSLA hSpre]
        exact hc
      · refine (hfr _ hSA hSL ?_ hSpre).trans hc
        intro hp
        rcases pre_snoc₂_cases hp with h | h | h
        · exact hpreC h
        · exact append_last_ne (by decide) h
        · exact hSLA h.symm
    exact ⟨c, readToStringAt_of_file (by rw [hresS]; exact hSval)⟩
  obtain ⟨text2, hcomb2⟩ := combine_forward hreads
  -- create_dir_all is a no-op in st'
  have hcda : createDirAllAt st' [.normal ccName] = .ok st' := by
    refine createDirAllAt_noop ?_
    intro q h1 h2
    rw [show resolveFrom st'.cwd [.normal ccName] = st'.cwd ++ [ccName] from rfl,
      hcwd'] at h2
    exact hpref' q h1 h2
  -- rewrite of the combined path in st'
  have hresA' : resolveFrom st'.cwd [.normal ccName, .normal (combinedFilenameOf files)] =
      st.cwd ++ [ccName, combinedFilenameOf files] := by
    rw [resolveFrom_two, hcwd']
  have hparA : parentIsDir st'.fs (st.cwd ++ [ccName, combinedFilenameOf files]) = true := by
    rw [parentIsDir_iff]
    right
    rw [show st.cwd ++ [ccName, combinedFilenameOf files] =
      (st.cwd ++ [ccName]) ++ [combinedFilenameOf files] from by simp, dropLast_snoc]
    exact hpref' (st.cwd ++ [ccName]) (by simp) (pre_refl _)
  -- the write step
  have hwr2 : ∃ W2, writeFileAt st' [.normal ccName, .normal (combinedFilenameOf files)]
        text2 = .ok W2 ∧ W2.cwd = st.cwd ∧
      ∀ q, lookupFS W2.fs q =
        if q = st.cwd ++ [ccName, combinedFilenameOf files] then some (.file text2)
        else lookupFS st'.fs q := by
    refine ⟨_, writeFileAt_of_file (by rw [hresA']; exact hA') (by rw [hresA']; exact hparA),
      hcwd', fun q => ?_⟩
    show lookupFS (setKey st'.fs
      (resolveFrom st'.cwd [.normal ccName, .normal (combinedFilenameOf files)])
      (.file text2)) q = _
    rw [lookup_setKey, hresA']
  obtain ⟨W2, hwr2eq, hW2cwd, hW2desc⟩ := hwr2
  -- target-directory facts carried to W2
  have hTDA : resolveFrom st.cwd tdR = [] ∨
      resolveFrom st.cwd tdR ≠ st.cwd ++ [ccName, combinedFilenameOf files] := by
    rcases hTD' with h | h
    · exact Or.inl h
    · right
      intro hh
      rw [hh, hA'] at h
      exact Node.noConfusion (Option.some.inj h)
  have hTDW2 : resolveFrom W2.cwd tdR = [] ∨
      lookupFS W2.fs (resolveFrom W2.cwd tdR) = some .dir := by
    rw [hW2cwd]
    rcases hTD' with h | h
    · exact Or.inl h
    · rcases hTDA with h2 | h2
      · exact Or.inl h2
      · right
        rw [hW2desc, if_neg h2]
        exact h
  -- iteration 1
  have hA_W2 : lookupFS W2.fs
      (resolveFrom W2.cwd [.normal ccName, .normal (combinedFilenameOf files)]) =
      some (.file text2) := by
    rw [resolveFrom_two, hW2cwd, hW2desc, if_pos rfl]
  have hL_W2 : lookupFS W2.fs (resolveFrom W2.cwd tdR ++ ["CONVENTIONS.md".toList]) =
      some (.symlink (resolveFrom W2.cwd
        [.normal ccName, .normal (combinedFilenameOf files)])) := by
    rw [resolveFrom_two, hW2cwd, hW2desc, if_neg hL1A]
    exact hL1
  obtain ⟨S1, hs1, hS1cwd, hS1desc⟩ := stepSymlinkName_ok_of hA_W2 hL_W2 hTDW2
  rw [hW2cwd] at hS1cwd
  simp only [hW2cwd, resolveFrom_two] at hS1desc
  -- iteration 2
  have hA_S1 : lookupFS S1.fs
      (resolveFrom S1.cwd [.normal ccName, .normal (combinedFilenameOf files)]) =
      some (.file text2) := by
    rw [resolveFrom_two, hS1cwd, hS1desc, if_neg hL1A.symm, hW2desc, if_pos rfl]
  have hL_S1 : lookupFS S1.fs (resolveFrom S1.cwd tdR ++ ["AGENTS.md".toList]) =
      some (.symlink (resolveFrom S1.cwd
        [.normal ccName, .normal (combinedFilenameOf files)])) := by
    rw [resolveFrom_two, hS1cwd, hS1desc,
      if_neg (append_last_ne (by decide)), hW2desc, if_neg hL2A]
    exact hL2
  have hTDS1 : resolveFrom S1.cwd tdR = [] ∨
      lookupFS S1.fs (resolveFrom S1.cwd tdR) = some .dir := by
    rw [hS1cwd]
    rcases hTDW2 with h | h
    · left
      rwa [hW2cwd] at h
    · right
      rw [hS1desc, if_neg self_ne_snoc]
      rwa [hW2cwd] at h
  obtain ⟨S2, hs2, hS2cwd, hS2desc⟩ := stepSymlinkName_ok_of hA_S1 hL_S1 hTDS1
  rw [hS1cwd] at hS2cwd
  simp only [hS1cwd, resolveFrom_two] at hS2desc
  -- iteration 3
  have hA_S2 : lookupFS S2.fs
      (resolveFrom S2.cwd [.normal ccName, .normal (combinedFilenameOf files)]) =
      some (.file text2) := by
    rw [resolveFrom_two, hS2cwd, hS2desc, if_neg hL2A.symm, hS1desc,
      if_neg hL1A.symm, hW2desc, if_pos rfl]
  have hL_S2 : lookupFS S2.fs (resolveFrom S2.cwd tdR ++ ["CLAUDE.md".toList]) =
      some (.symlink (resolveFrom S2.cwd
        [.normal ccName, .normal (combinedFilenameOf files)])) := by
    rw [resolveFrom_two, hS2cwd, hS2desc, if_neg (append_last_ne (by decide)),
      hS1desc, if_neg (append_last_ne (by decide)), hW2desc, if_neg hL3A]
    exact hL3
  have hTDS2 : resolveFrom S2.cwd tdR = [] ∨
      lookupFS S2.fs (resolveFrom S2.cwd tdR) = some .dir := by
    rw [hS2cwd]
    rcases hTDS1 with h | h
    · left
      rwa [hS1cwd] at h
    · right
      rw [hS2desc, if_neg self_ne_snoc]
      rwa [hS1cwd] at h
  obtain ⟨S3, hs3, hS3cwd, hS3desc⟩ := stepSymlinkName_ok_of hA_S2 hL_S2 hTDS2
  rw [hS2cwd] at hS3cwd
  simp only [hS2cwd, resolveFrom_two] at hS3desc
  -- the three links hold the same symlinks in S3 as in st'
  have hS3L1 : lookupFS S3.fs (resolveFrom st.cwd tdR ++ ["CONVENTIONS.md".toList]) =
      some (.symlink (st.cwd ++ [ccName, combinedFilenameOf files])) := by
    rw [hS3desc, if_neg (append_last_ne (by decide)), hS2desc,
      if_neg (append_last_ne (by decide)), hS1desc, if_pos rfl]
  have hS3L2 : lookupFS S3.fs (resolveFrom st.cwd tdR ++ ["AGENTS.md".toList]) =
      some (.symlink (st.cwd ++ [ccName, combinedFilenameOf files])) := by
    rw [hS3desc, if_neg (append_last_ne (by decide)), hS2desc, if_pos rfl]
  have hS3L3 : lookupFS S3.fs (resolveFrom st.cwd tdR ++ ["CLAUDE.md".toList]) =
      some (.symlink (st.cwd ++ [ccName, combinedFilenameOf files])) := by
    rw [hS3desc, if_pos rfl]
  have hS3LA : lookupFS S3.fs (resolveFrom st.cwd tdR ++ [agentsUpper]) =
      lookupFS st'.fs (resolveFrom st.cwd tdR ++ [agentsUpper]) := by
    rw [hS3desc, if_neg (hLA_ne_L _ (by simp [symlinkNames])), hS2desc,
      if_neg (hLA_ne_L _ (by simp [symlinkNames])), hS1desc,
      if_neg (hLA_ne_L _ (by simp [symlinkNames])), hW2desc, if_neg hLA_ne_A]
  have hS3G : lookupFS S3.fs (st.cwd ++ [conventionsName, agentsLower]) =
      lookupFS st.fs (st.cwd ++ [conventionsName, agentsLower]) := by
    rw [hS3desc, if_neg (hG_ne_L _ (by simp [symlinkNames])), hS2desc,
      if_neg (hG_ne_L _ (by simp [symlinkNames])), hS1desc,
      if_neg (hG_ne_L _ (by simp [symlinkNames])), hW2desc, if_neg hG_ne_A]
    exact hG'
  have hTDS3 : resolveFrom st.cwd tdR = [] ∨
      lookupFS S3.fs (resolveFrom st.cwd tdR) = some .dir := by
    rcases hTDS2 with h | h
    · left
      rwa [hS2cwd] at h
    · right
      rw [hS3desc, if_neg self_ne_snoc]
      rwa [hS2cwd] at h
  -- the run so far
  have hpipe : compile_files st' files tdR = agentsStep tdR S3 := by
    unfold compile_files
    rw [hcomb2]
    simp only [ok_bind]
    show (createDirAllAt st' [.normal ccName] >>= fun st1 =>
      writeFileAt st1 [.normal ccName, .normal (combinedFilenameOf files)] text2 >>=
        fun st2 => symlinkNames.foldlM (stepSymlinkName
          [.normal ccName, .normal (combinedFilenameOf files)] tdR) st2 >>= fun st3 =>
          agentsStep tdR st3) = agentsStep tdR S3
    rw [hcda]
    simp only [ok_bind]
    rw [hwr2eq]
    simp only [ok_bind]
    simp only [symlinkNames, List.foldlM]
    rw [hs1]
    simp only [ok_bind]
    rw [hs2]
    simp only [ok_bind]
    rw [hs3]
    simp only [ok_bind]
    rfl
  -- the agents block second time around
  have hGres3 : resolveFrom S3.cwd [.normal conventionsName, .normal agentsLower] =
      st.cwd ++ [conventionsName, agentsLower] := by
    rw [resolveFrom_two, hS3cwd]
  have hLAres3 : resolveFrom S3.cwd (tdR ++ [.normal agentsUpper]) =
      resolveFrom st.cwd tdR ++ [agentsUpper] := by
    rw [resolveFrom_snoc_normal, hS3cwd]
  rcases hGshape with hGdir | hGnone
  · -- conventions/agents is a directory: rerun replaces the AGENTS symlink
    have hLAS3 : lookupFS S3.fs (resolveFrom st.cwd tdR ++ [agentsUpper]) =
        some (.symlink (st.cwd ++ [conventionsName, agentsLower])) := by
      rw [hS3LA]
      exact hAg' hGdir
    have hbranch : existsAt S3 [.normal conventionsName, .normal agentsLower] = true :=
      existsAt_of_dir (by rw [hGres3, hS3G]; exact hGdir)
    have hsyml : isSymlinkAt S3 (tdR ++ [.normal agentsUpper]) = true :=
      isSymlinkAt_of_symlink (by rw [hLAres3]; exact hLAS3)
    have hcond : (existsAt S3 (tdR ++ [.normal agentsUpper]) ||
        isSymlinkAt S3 (tdR ++ [.normal agentsUpper])) = true := by
      rw [hsyml]
      simp
    have hdirb : (isDirAt S3 (tdR ++ [.normal agentsUpper]) &&
        !isSymlinkAt S3 (tdR ++ [.normal agentsUpper])) = false := by
      rw [hsyml]
      simp
    have hrm : removeFileAt S3 (tdR ++ [.normal agentsUpper]) =
        .ok { S3 with fs := eraseKey S3.fs (resolveFrom S3.cwd (tdR ++ [.normal agentsUpper])) } :=
      removeFileAt_of_symlink (by rw [hLAres3]; exact hLAS3)
    set R : FSState := { S3 with fs := eraseKey S3.fs (resolveFrom S3.cwd (tdR ++ [.normal agentsUpper])) } with hRdef
    have hRdesc : ∀ q, lookupFS R.fs q =
        if q = resolveFrom st.cwd tdR ++ [agentsUpper] then none else lookupFS S3.fs q := by
      intro q
      show lookupFS (eraseKey S3.fs (resolveFrom S3.cwd (tdR ++ [.normal agentsUpper]))) q = _
      rw [lookup_eraseKey, hLAres3]
    have hG_ne_LA : st.cwd ++ [conventionsName, agentsLower] ≠
        resolveFrom st.cwd tdR ++ [agentsUpper] := by
      rw [show st.cwd ++ [conventionsName, agentsLower] =
        (st.cwd ++ [conventionsName]) ++ [agentsLower] from by simp]
      exact append_last_ne (by decide)
    have hGR : lookupFS R.fs (resolveFrom R.cwd
        [.normal conventionsName, .normal agentsLower]) = some .dir := by
      show lookupFS R.fs (resolveFrom S3.cwd [.normal conventionsName, .normal agentsLower]) =
        some .dir
      rw [hGres3, hRdesc, if_neg hG_ne_LA, hS3G]
      exact hGdir
    have hcanR : canonicalizeAt R [.normal conventionsName, .normal agentsLower] =
        .ok (st.cwd ++ [conventionsName, agentsLower]) := by
      rw [canonicalizeAt_of_dir hGR]
      show Except.ok (resolveFrom S3.cwd [.normal conventionsName, .normal agentsLower]) = _
      rw [hGres3]
    have hLAR_none : lookupFS R.fs (resolveFrom R.cwd (tdR ++ [.normal agentsUpper])) =
        none := by
      show lookupFS R.fs (resolveFrom S3.cwd (tdR ++ [.normal agentsUpper])) = none
      rw [hLAres3, hRdesc, if_pos rfl]
    have hLAR_ne : resolveFrom R.cwd (tdR ++ [.normal agentsUpper]) ≠ [] := by
      show resolveFrom S3.cwd (tdR ++ [.normal agentsUpper]) ≠ []
      rw [hLAres3]
      exact snoc_ne_nil
    have hLAR_par : parentIsDir R.fs (resolveFrom R.cwd (tdR ++ [.normal agentsUpper])) =
        true := by
      show parentIsDir R.fs (resolveFrom S3.cwd (tdR ++ [.normal agentsUpper])) = true
      rw [hLAres3, parentIsDir_iff, dropLast_snoc]
      rcases hTDS3 with h | h
      · exact Or.inl h
      · right
        rw [hRdesc, if_neg self_ne_snoc]
        exact h
    have hsym : symlinkAt R (st.cwd ++ [conventionsName, agentsLower])
        (tdR ++ [.normal agentsUpper]) =
        .ok { R with fs := setKey R.fs (resolveFrom R.cwd (tdR ++ [.normal agentsUpper])) (.symlink (st.cwd ++ [conventionsName, agentsLower])) } :=
      symlinkAt_of _ hLAR_none hLAR_ne hLAR_par
    set F : FSState := { R with fs := setKey R.fs (resolveFrom R.cwd (tdR ++ [.normal agentsUpper])) (.symlink (st.cwd ++ [conventionsName, agentsLower])) } with hFdef
    have hFdesc : ∀ q, lookupFS F.fs q =
        if q = resolveFrom st.cwd tdR ++ [agentsUpper]
        then some (.symlink (st.cwd ++ [conventionsName, agentsLower]))
        else lookupFS R.fs q := by
      intro q
      show lookupFS (setKey R.fs (resolveFrom S3.cwd (tdR ++ [.normal agentsUpper]))
        (.symlink (st.cwd ++ [conventionsName, agentsLower]))) q = _
      rw [lookup_setKey, hLAres3]
    have hag : agentsStep tdR S3 = .ok F := by
      unfold agentsStep
      rw [if_pos hbranch, if_pos hcond, if_neg (by simp [hdirb]), hrm]
      simp only [ok_bind]
      rw [hcanR]
      simp only [ok_bind]
      exact hsym
    refine ⟨F, hpipe.trans hag, ?_, ?_⟩
    · intro n hn
      fin_cases hn
      · rw [hFdesc, if_neg (append_last_ne (by decide)), hRdesc,
          if_neg (append_last_ne (by decide)), hS3L1, hL1]
      · rw [hFdesc, if_neg (append_last_ne (by decide)), hRdesc,
          if_neg (append_last_ne (by decide)), hS3L2, hL2]
      · rw [hFdesc, if_neg (append_last_ne (by decide)), hRdesc,
          if_neg (append_last_ne (by decide)), hS3L3, hL3]
    · rw [hFdesc, if_pos rfl, hAg' hGdir]
  · -- conventions/agents absent in the initial state: the block is skipped
    have hnone3 : existsAt S3 [.normal conventionsName, .normal agentsLower] = false :=
      existsAt_of_none (by rw [hGres3, hS3G]; exact hGnone)
    have hskip : agentsStep tdR S3 = .ok S3 := by
      unfold agentsStep
      rw [if_neg (by rw [hnone3]; exact fun h => Bool.noConfusion h)]
      rfl
    refine ⟨S3, hpipe.trans hskip, ?_, ?_⟩
    · intro n hn
      fin_cases hn
      · rw [hS3L1, hL1]
      · rw [hS3L2, hL2]
      · rw [hS3L3, hL3]
    · exact hS3LA

/-- Witness for C3 at a concrete filesystem: rerunning `compile_files` on the
state left by the first run succeeds. -/
theorem c3_witness :
    exceptIsOk (compile_files c2st c2files c2td >>= fun s1 =>
      compile_files s1 c2files c2td) = true := by
  have hisok : exceptIsOk (compile_files c2st c2files c2td) = true := by decide
  cases heq : compile_files c2st c2files c2td with
  | error e =>
    rw [heq] at hisok
    exact absurd hisok (by simp [exceptIsOk])
  | ok s1 =>
    obtain ⟨s2, h2, h3, h4⟩ := c3_republish_idempotent c2st s1 c2files c2td heq
      (by intro f hf
          simp only [c2files, List.mem_singleton] at hf
          subst hf
          exact ⟨rfl, ⟨"x".toList, by decide⟩, by decide⟩)
      (by intro t
          rw [show lookupFS c2st.fs (c2st.cwd ++ [ccName, combinedFilenameOf c2files]) =
            none from by decide]
          exact fun h => Option.noConfusion h)
      (by left; decide)
    show exceptIsOk (Except.ok s1 >>= fun s1 => compile_files s1 c2files c2td) = true
    rw [ok_bind, h2]
    rfl

/-! ## Claim C5 -/

theorem setKey_preserve (fs : List (APath × Node)) (p : APath) (n : Node) :
    ∀ q, lookupFS (setKey fs p n) q = lookupFS fs q ∨ lookupFS (setKey fs p n) q = some n := by
  intro q
  rw [lookup_setKey]
  by_cases hq : q = p
  · rw [if_pos hq]
    exact Or.inr rfl
  · rw [if_neg hq]
    exact Or.inl rfl

theorem writeConfigAt_ok_preserve {st st2 : FSState} {r : RPath} {c : Config}
    (h : writeConfigAt st r c = .ok st2) :
    st2.cwd = st.cwd ∧
    ∀ q, lookupFS st2.fs q = lookupFS st.fs q ∨
      lookupFS st2.fs q = some (.configFile c) := by
  unfold writeConfigAt at h
  split at h
  all_goals first
    | exact Except.noConfusion h
    | (have h2 := Except.ok.inj h
       subst h2
       exact ⟨rfl, setKey_preserve _ _ _⟩)
    | (split at h
       all_goals first
         | exact Except.noConfusion h
         | (have h2 := Except.ok.inj h
            subst h2
            exact ⟨rfl, setKey_preserve _ _ _⟩))

theorem load_or_create_config_ok_preserve {st : FSState} {c : Config} {st2 : FSState}
    (h : load_or_create_config st = .ok (c, st2)) :
    st2.cwd = st.cwd ∧
    ∀ q, lookupFS st2.fs q = lookupFS st.fs q ∨
      lookupFS st2.fs q = some (.configFile defaultConfig) := by
  unfold load_or_create_config at h
  split at h
  · have h2 := Except.ok.inj h
    injection h2 with h3 h4
    subst h4
    exact ⟨rfl, fun q => Or.inl rfl⟩
  · exact Except.noConfusion h
  · exact Except.noConfusion h
  · split at h
    · have h2 := Except.ok.inj h
      injection h2 with h3 h4
      subst h4
      exact ⟨rfl, fun q => Or.inl rfl⟩
    · exact Except.noConfusion h
    · exact Except.noConfusion h
    · rw [except_bind_ok] at h
      obtain ⟨s, hw, hret⟩ := h
      have h2 := Except.ok.inj hret
      injection h2 with h3 h4
      subst h4
      exact writeConfigAt_ok_preserve hw
  · rw [except_bind_ok] at h
    obtain ⟨s, hw, hret⟩ := h
    have h2 := Except.ok.inj hret
    injection h2 with h3 h4
    subst h4
    exact writeConfigAt_ok_preserve hw

theorem createDirStep_ok_preserve {st st2 : FSState} {p : APath}
    (h : createDirStep st p = .ok st2) :
    st2.cwd = st.cwd ∧
    ∀ q, lookupFS st2.fs q = lookupFS st.fs q ∨ lookupFS st2.fs q = some .dir := by
  unfold createDirStep at h
  split at h
  · have h2 := Except.ok.inj h
    subst h2
    refine ⟨rfl, fun q => ?_⟩
    show lookupFS (setKey st.fs p .dir) q = lookupFS st.fs q ∨
      lookupFS (setKey st.fs p .dir) q = some .dir
    rw [lookup_setKey]
    by_cases hq : q = p
    · rw [if_pos hq]
      exact Or.inr rfl
    · rw [if_neg hq]
      exact Or.inl rfl
  · have h2 := Except.ok.inj h
    subst h2
    exact ⟨rfl, fun q => Or.inl rfl⟩
  · exact Except.noConfusion h

theorem foldlM_createDirStep_preserve (ps : List APath) (st st2 : FSState)
    (h : ps.foldlM createDirStep st = .ok st2) :
    st2.cwd = st.cwd ∧
    ∀ q, lookupFS st2.fs q = lookupFS st.fs q ∨ lookupFS st2.fs q = some .dir := by
  induction ps generalizing st with
  | nil =>
    have h2 : st = st2 := by
      simpa [List.foldlM, pure, Except.pure] using h
    subst h2
    exact ⟨rfl, fun q => Or.inl rfl⟩
  | cons p t ih =>
    rw [show (p :: t).foldlM createDirStep st =
      createDirStep st p >>= fun s => t.foldlM createDirStep s from rfl,
      except_bind_ok] at h
    obtain ⟨s1, h1, h2⟩ := h
    obtain ⟨hcwd1, hdesc1⟩ := createDirStep_ok_preserve h1
    obtain ⟨hcwd2, hdesc2⟩ := ih s1 h2
    refine ⟨hcwd2.trans hcwd1, fun q => ?_⟩
    rcases hdesc2 q with h3 | h3
    · rw [h3]
      exact hdesc1 q
    · exact Or.inr h3

theorem createDirAllAt_ok_preserve {st st2 : FSState} {r : RPath}
    (h : createDirAllAt st r = .ok st2) :
    st2.cwd = st.cwd ∧
    ∀ q, lookupFS st2.fs q = lookupFS st.fs q ∨ lookupFS st2.fs q = some .dir := by
  unfold createDirAllAt at h
  exact foldlM_createDirStep_preserve _ _ _ h

theorem ensureTargetDir_ok_preserve {st st2 : FSState} {p p2 : RPath}
    (h : ensureTargetDir st p = .ok (p2, st2)) :
    st2.cwd = st.cwd ∧
    ∀ q, lookupFS st2.fs q = lookupFS st.fs q ∨ lookupFS st2.fs q = some .dir := by
  unfold ensureTargetDir at h
  split at h
  · rw [except_bind_ok] at h
    obtain ⟨s1, h1, h2⟩ := h
    have h3 := Except.ok.inj h2
    injection h3 with h4 h5
    subst h5
    exact createDirAllAt_ok_preserve h1
  · have h3 := Except.ok.inj h
    injection h3 with h4 h5
    subst h5
    exact ⟨rfl, fun q => Or.inl rfl⟩

theorem find_candidate_directories_ok_preserve {st : FSState}
    {dirs : List RPath} {warns : List (List Char)} {st1 : FSState}
    (h : find_candidate_directories st = .ok (dirs, warns, st1)) :
    st1.cwd = st.cwd ∧
    ∀ q, lookupFS st1.fs q = lookupFS st.fs q ∨
      lookupFS st1.fs q = some (.configFile defaultConfig) := by
  unfold find_candidate_directories at h
  rw [except_bind_ok] at h
  obtain ⟨pair, h1, h2⟩ := h
  obtain ⟨c0, stc⟩ := pair
  have h3 := Except.ok.inj h2
  have h4 := congrArg (fun x => x.2.2) h3
  have h5 : stc = st1 := h4
  subst h5
  exact load_or_create_config_ok_preserve h1

theorem get_target_directory_ok_preserve {st : FSState} {inp : Inputs} {p : RPath}
    {st2 : FSState} (h : get_target_directory st inp = .ok (p, st2)) :
    st2.cwd = st.cwd ∧
    ∀ q, lookupFS st2.fs q = lookupFS st.fs q ∨
      lookupFS st2.fs q = some (.configFile defaultConfig) ∨
      lookupFS st2.fs q = some .dir := by
  unfold get_target_directory at h
  rw [except_bind_ok] at h
  obtain ⟨triple, h1, h⟩ := h
  rw [except_bind_ok] at h
  obtain ⟨pair2, h2, h⟩ := h
  obtain ⟨dirs, warns, stA⟩ := triple
  obtain ⟨c2, stB⟩ := pair2
  obtain ⟨hcwdA, hdescA⟩ := find_candidate_directories_ok_preserve h1
  obtain ⟨hcwdB, hdescB⟩ := load_or_create_config_ok_preserve h2
  have hcompose : stB.cwd = st.cwd ∧
      ∀ q, lookupFS stB.fs q = lookupFS st.fs q ∨
        lookupFS stB.fs q = some (.configFile defaultConfig) := by
    refine ⟨hcwdB.trans hcwdA, fun q => ?_⟩
    rcases hdescB q with hB | hB
    · rw [hB]
      exact hdescA q
    · exact Or.inr hB
  obtain ⟨hcwdC, hdescC⟩ := hcompose
  split at h
  · have h3 := Except.ok.inj h
    injection h3 with h4 h5
    subst h5
    refine ⟨hcwdC, fun q => ?_⟩
    rcases hdescC q with hB | hB
    · exact Or.inl hB
    · exact Or.inr (Or.inl hB)
  · have h3 := Except.ok.inj h
    injection h3 with h4 h5
    subst h5
    refine ⟨hcwdC, fun q => ?_⟩
    rcases hdescC q with hB | hB
    · exact Or.inl hB
    · exact Or.inr (Or.inl hB)
  · obtain ⟨hcwdD, hdescD⟩ := ensureTargetDir_ok_preserve h
    refine ⟨hcwdD.trans hcwdC, fun q => ?_⟩
    rcases hdescD q with hD | hD
    · rw [hD]
      rcases hdescC q with hB | hB
      · exact Or.inl hB
      · exact Or.inr (Or.inl hB)
    · exact Or.inr (Or.inr hD)
  · obtain ⟨hcwdD, hdescD⟩ := ensureTargetDir_ok_preserve h
    refine ⟨hcwdD.trans hcwdC, fun q => ?_⟩
    rcases hdescD q with hD | hD
    · rw [hD]
      rcases hdescC q with hB | hB
      · exact Or.inl hB
      · exact Or.inr (Or.inl hB)
    · exact Or.inr (Or.inr hD)

/-- Claim C5 (amended): when the user declines the confirmation prompt the
run exits cleanly — the command returns without error, the outcome is never
`completed`, and nothing is published: every regular file and every symlink
present afterwards was already present beforehand with identical
content/target, so no combined file is written and no symlink is created.
The original claim's further assertion that no directory or config file is
created during such a run is refuted by `c5_counterexample`: config-file
creation (during config loading) and target-directory creation (during
target selection) precede the confirmation prompt. -/
theorem c5_decline_no_publication (st st2 : FSState) (inp : Inputs) (out : Outcome)
    (hconf : inp.confirmProceed = false)
    (hok : run_compile_command st inp = .ok (st2, out)) :
    st2.cwd = st.cwd ∧
    (out = .noFiles ∨ out = .noneSelected ∨ out = .cancelled) ∧
    (∀ q c, lookupFS st2.fs q = some (.file c) → lookupFS st.fs q = some (.file c)) ∧
    (∀ q t, lookupFS st2.fs q = some (.symlink t) →
      lookupFS st.fs q = some (.symlink t)) := by
  unfold run_compile_command at hok
  rw [except_bind_ok] at hok
  obtain ⟨files, hf, hok⟩ := hok
  split at hok
  · have h2 := Except.ok.inj hok
    injection h2 with h3 h4
    subst h3
    subst h4
    exact ⟨rfl, Or.inl rfl, fun q c hq => hq, fun q t hq => hq⟩
  · split at hok
    · have h2 := Except.ok.inj hok
      injection h2 with h3 h4
      subst h3
      subst h4
      exact ⟨rfl, Or.inr (Or.inl rfl), fun q c hq => hq, fun q t hq => hq⟩
    · rw [except_bind_ok] at hok
      obtain ⟨pair, hgt, hok⟩ := hok
      obtain ⟨tdp, stB⟩ := pair
      split at hok
      · have h2 := Except.ok.inj hok
        injection h2 with h3 h4
        subst h3
        subst h4
        obtain ⟨hcwd, hdesc⟩ := get_target_directory_ok_preserve hgt
        refine ⟨hcwd, Or.inr (Or.inr rfl), fun q c hq => ?_, fun q t hq => ?_⟩
        · rcases hdesc q with h | h | h
          · rw [h] at hq
            exact hq
          · rw [h] at hq
            exact Node.noConfusion (Option.some.inj hq)
          · rw [h] at hq
            exact Node.noConfusion (Option.some.inj hq)
        · rcases hdesc q with h | h | h
          · rw [h] at hq
            exact hq
          · rw [h] at hq
            exact Node.noConfusion (Option.some.inj hq)
          · rw [h] at hq
            exact Node.noConfusion (Option.some.inj hq)
      case isFalse hcond =>
        rw [hconf] at hcond
        exact absurd rfl hcond

def c5st : FSState :=
  { fs := [ (["h".toList], .dir)
          , (["h".toList, "conventions".toList], .dir)
          , (["h".toList, "conventions".toList, "a.md".toList], .file "x".toList) ]
  , cwd := ["h".toList] }

def c5inp : Inputs :=
  { fileChoiceIdxs := [0], skim := .abort "t".toList, confirmProceed := false }

def outcomeOf : Except Err (FSState × Outcome) → Option Outcome
  | .ok p => some p.2
  | .error _ => none

/-- The node found at a path in the state a run returns. -/
def postLookup : Except Err (FSState × Outcome) → APath → Option (Option Node)
  | .ok p, q => some (lookupFS p.1.fs q)
  | .error _, _ => none

/-- Counterexample to C5 as stated: on a filesystem with no `config.yaml`,
a run in which the user declines the confirmation prompt still ends with
outcome `cancelled` and with `config.yaml` created (holding the default
config) — a config-file side effect despite the declined confirmation. -/
theorem c5_counterexample :
    lookupFS c5st.fs (c5st.cwd ++ [configYamlName]) = none ∧
    outcomeOf (run_compile_command c5st c5inp) = some .cancelled ∧
    postLookup (run_compile_command c5st c5inp) (c5st.cwd ++ [configYamlName]) =
      some (some (.configFile defaultConfig)) := by decide

/-- Witness for the amended C5 theorem at a concrete filesystem. -/
theorem c5_decline_no_publication_witness :
    ∃ st2 out, run_compile_command c5st c5inp = .ok (st2, out) ∧ st2.cwd = c5st.cwd ∧
      (out = .noFiles ∨ out = .noneSelected ∨ out = .cancelled) := by
  have hisok : exceptIsOk (run_compile_command c5st c5inp) = true := by decide
  cases heq : run_compile_command c5st c5inp with
  | error e =>
    rw [heq] at hisok
    exact absurd hisok (by simp [exceptIsOk])
  | ok p =>
    obtain ⟨hcwd, hout, h3, h4⟩ := c5_decline_no_publication c5st p.1 c5inp p.2 (by decide)
      (by rw [heq])
    exact ⟨p.1, p.2, rfl, hcwd, hout⟩

/-! ## Claim C7 -/

def c7cfg : Config :=
  { search_root := "/nope".toList, show_hidden := false, max_depth := 2, prompt := [] }

def c7st : FSState :=
  { fs := [ (["h".toList], .dir), (["h".toList, configYamlName], .configFile c7cfg) ]
  , cwd := ["h".toList] }

/-- Counterexample to C7 as stated: with a configured search root that does
not exist on disk, the offered candidate set is the current directory AND
the parent directory — not just the current directory. -/
theorem c7_counterexample :
    existsAt c7st (strToRPath c7cfg.search_root) = false ∧
    find_candidate_directories c7st =
      .ok ([[PComp.cur], [PComp.parent]], [c7cfg.search_root], c7st) ∧
    ([[PComp.cur], [PComp.parent]] : List RPath) ≠ [[PComp.cur]] := by decide

/-- Claim C7 (amended): whenever the configured search root does not exist on
disk, candidate discovery does not fail: it returns the degraded candidate
list consisting of exactly the current directory and the parent directory,
and surfaces a warning naming the missing search root. -/
theorem c7_missing_root_degrades (st st1 : FSState) (c : Config)
    (hload : load_or_create_config st = .ok (c, st1))
    (hmiss : existsAt st1 (strToRPath c.search_root) = false) :
    find_candidate_directories st =
      .ok ([[PComp.cur], [PComp.parent]], [c.search_root], st1) := by
  unfold find_candidate_directories
  rw [hload]
  simp only [ok_bind]
  simp only [hmiss]
  simp only [Bool.false_eq_true, not_false_eq_true, if_true]
  rw [show dedupAdj (List.insertionSort rpathLe
    ([[PComp.cur]] ++ [[PComp.cur], [PComp.parent]])) = [[PComp.cur], [PComp.parent]]
    from by decide]

/-! ## Claim C8 -/

theorem splitSlash_ne_nil (s : List Char) : splitSlash s ≠ [] := by
  induction s with
  | nil => exact fun hh => List.noConfusion hh
  | cons c t ih =>
    unfold splitSlash
    by_cases hc : c = '/'
    · rw [if_pos hc]
      exact fun hh => List.noConfusion hh
    · rw [if_neg hc]
      cases h : splitSlash t with
      | nil => exact fun hh => List.noConfusion hh
      | cons p ps => exact fun hh => List.noConfusion hh

theorem splitSlash_cons (c : Char) (t : List Char) :
    splitSlash (c :: t) = if c = '/' then [] :: splitSlash t
      else match splitSlash t with
        | [] => [[c]]
        | p :: ps => (c :: p) :: ps := rfl

theorem splitSlash_append_slash (x y : List Char) :
    splitSlash (x ++ '/' :: y) = splitSlash x ++ splitSlash y := by
  induction x with
  | nil =>
    show splitSlash ('/' :: y) = splitSlash [] ++ splitSlash y
    rw [splitSlash_cons, if_pos rfl]
    rfl
  | cons c t ih =>
    show splitSlash (c :: (t ++ '/' :: y)) = splitSlash (c :: t) ++ splitSlash y
    simp only [splitSlash_cons]
    by_cases hc : c = '/'
    · rw [if_pos hc, if_pos hc, ih]
      rfl
    · rw [if_neg hc, if_neg hc, ih]
      cases h : splitSlash t with
      | nil => exact absurd h (splitSlash_ne_nil t)
      | cons p ps => rfl

theorem strToRPath_congr {x y : List Char} (h1 : x.head? = y.head?)
    (h2 : (splitSlash x).filter (fun p => p ≠ []) =
          (splitSlash y).filter (fun p => p ≠ [])) :
    strToRPath x = strToRPath y := by
  unfold strToRPath
  rw [h1, h2]

theorem filter_splitSlash_double (x y : List Char) :
    (splitSlash (x ++ '/' :: '/' :: y)).filter (fun p => p ≠ []) =
    (splitSlash (x ++ '/' :: y)).filter (fun p => p ≠ []) := by
  have h1 := splitSlash_append_slash x ('/' :: y)
  have h2 := splitSlash_append_slash x y
  rw [h1, h2, show splitSlash ('/' :: y) = [] :: splitSlash y from rfl]
  simp [List.filter_append]

theorem strToRPath_double_slash (x y : List Char) :
    strToRPath (x ++ '/' :: '/' :: y) = strToRPath (x ++ '/' :: y) :=
  strToRPath_congr (by cases x <;> rfl) (filter_splitSlash_double x y)

theorem strToRPath_dropSlashes (sr r : List Char) :
    strToRPath (sr ++ '/' :: (r.dropWhile (fun c => c = '/'))) =
    strToRPath (sr ++ '/' :: r) := by
  induction r with
  | nil => rfl
  | cons c t ih =>
    by_cases hc : c = '/'
    · subst hc
      rw [show List.dropWhile (fun c => c = '/') ('/' :: t) =
        List.dropWhile (fun c => c = '/') t from by simp [List.dropWhile_cons]]
      rw [ih]
      exact (strToRPath_double_slash sr t).symm
    · rw [show List.dropWhile (fun c2 => c2 = '/') (c :: t) = c :: t from by
        simp [List.dropWhile_cons, hc]]

theorem strToRPath_trailing_slash (sr : List Char) (h : sr ≠ []) :
    strToRPath (sr ++ ['/']) = strToRPath sr := by
  refine strToRPath_congr ?_ ?_
  · cases sr with
    | nil => exact absurd rfl h
    | cons a t => rfl
  · rw [show sr ++ ['/'] = sr ++ '/' :: [] from rfl, splitSlash_append_slash]
    simp [List.filter_append, splitSlash]

theorem isPrefixOf_append_self (x y : List Char) : x.isPrefixOf (x ++ y) = true := by
  rw [List.isPrefixOf_iff_prefix]
  exact List.prefix_append x y

theorem dropPreRepFuel_of_no (pat s : List Char) (fuel : Nat)
    (h : pat.isPrefixOf s = false) : dropPreRepFuel pat fuel s = s := by
  cases fuel with
  | zero => rfl
  | succ m =>
    unfold dropPreRepFuel
    rw [if_neg]
    rintro ⟨h1, h2⟩
    rw [h] at h2
    exact Bool.noConfusion h2

theorem dropPreRep_strip (pat s : List Char) (hpat : pat ≠ [])
    (h : pat.isPrefixOf s = false) : dropPreRep pat (pat ++ s) = s := by
  unfold dropPreRep
  cases hl : (pat ++ s).length with
  | zero =>
    exfalso
    rw [List.length_append] at hl
    cases pat with
    | nil => exact hpat rfl
    | cons a t => simp at hl
  | succ m =>
    unfold dropPreRepFuel
    rw [if_pos ⟨hpat, isPrefixOf_append_self pat s⟩, List.drop_left]
    exact dropPreRepFuel_of_no pat s m h

set_option maxHeartbeats 1000000 in
/-- Claim C8: display of a candidate that lies under the search root (an
arbitrary-depth descendant, or the root itself) rewrites it to the
`📁 ~/<relative>` form, and mapping the selected display string back yields a
path string denoting the original candidate path (the reversal may differ by
a trailing slash or collapsed slashes, which denote the same path). -/
theorem c8_display_roundtrip (sr rest : List Char) (hsr : sr ≠ [])
    (hne1 : sr ++ rest ≠ ['.'])
    (hne2 : sr ++ rest ≠ ['.', '.'])
    (hrest : rest = [] ∨ rest.head? = some '/') :
    strToRPath (reverseOf sr (displayOf sr (sr ++ rest))) =
      strToRPath (sr ++ rest) := by
  have hdisp : displayOf sr (sr ++ rest) =
      folderTag ++ ("~/".toList ++ rest.dropWhile (fun c => c = '/')) := by
    unfold displayOf
    rw [if_neg hne1, if_neg hne2, if_pos (isPrefixOf_append_self sr rest), List.drop_left,
      List.append_assoc]
  rw [hdisp]
  have hf : folderTag.isPrefixOf ("~/".toList ++ rest.dropWhile (fun c => c = '/')) =
      false := rfl
  have hstrip : dropPreRep folderTag
      (folderTag ++ ("~/".toList ++ rest.dropWhile (fun c => c = '/'))) =
      "~/".toList ++ rest.dropWhile (fun c => c = '/') :=
    dropPreRep_strip _ _ (by decide) hf
  have hcne1 : ("~/".toList ++ rest.dropWhile (fun c => c = '/')) ≠
      ". (current directory)".toList := by
    intro hh
    have h2 : some '~' = some '.' := congrArg List.head? hh
    exact absurd h2 (by decide)
  have hcne2 : ("~/".toList ++ rest.dropWhile (fun c => c = '/')) ≠
      ".. (parent directory)".toList := by
    intro hh
    have h2 : some '~' = some '.' := congrArg List.head? hh
    exact absurd h2 (by decide)
  have hdrop2 : ("~/".toList ++ rest.dropWhile (fun c => c = '/')).drop 2 =
      rest.dropWhile (fun c => c = '/') := by
    rw [show (2 : Nat) = ("~/".toList).length from rfl, List.drop_left]
  simp only [reverseOf]
  rw [hstrip, if_neg hcne1, if_neg hcne2,
    if_pos (isPrefixOf_append_self ("~/".toList) (rest.dropWhile (fun c => c = '/'))),
    hdrop2, List.append_assoc, List.singleton_append]
  rcases hrest with hr | hr
  · subst hr
    rw [show List.dropWhile (fun c => c = '/') ([] : List Char) = [] from rfl]
    rw [show sr ++ ('/' :: ([] : List Char)) = sr ++ ['/'] from rfl, List.append_nil]
    exact strToRPath_trailing_slash sr hsr
  · cases rest with
    | nil => exact Option.noConfusion hr
    | cons c t =>
      have hc : c = '/' := by
        have h3 : some c = some '/' := hr
        exact Option.some.inj h3
      subst hc
      rw [show List.dropWhile (fun c => c = '/') ('/' :: t) =
        List.dropWhile (fun c => c = '/') t from by simp [List.dropWhile_cons]]
      exact strToRPath_dropSlashes sr t

/-- Witness for C8 at concrete strings. -/
theorem c8_display_roundtrip_witness :
    ("/a".toList ≠ ([] : List Char)) ∧
    strToRPath (reverseOf "/a".toList
        (displayOf "/a".toList ("/a".toList ++ "/b".toList))) =
      strToRPath ("/a".toList ++ "/b".toList) :=
  ⟨by decide, c8_display_roundtrip "/a".toList "/b".toList (by decide) (by decide)
    (by decide) (Or.inr (by decide))⟩

/-! ## Claim C9 -/

def c9inp : Inputs :=
  { fileChoiceIdxs := [0], skim := .abort "t".toList, confirmProceed := true }

/-- The target path a successful `get_target_directory` returns. -/
def gtPath : Except Err (RPath × FSState) → Option RPath
  | .ok p => some p.1
  | .error _ => none

/-- Whether a path exists in the state a successful `get_target_directory`
returns. -/
def gtExists : Except Err (RPath × FSState) → RPath → Option Bool
  | .ok p, r => some (existsAt p.2 r)
  | .error _, _ => none

/-- Claim C9 is violated by the abort branch of `get_target_directory`
(`src/main.rs:337`): when the fuzzy finder is aborted and a path is typed
manually, the function returns that path immediately, skipping the
`create_dir_all` performed for the other selection outcomes.  At a concrete
filesystem: the typed target directory `t` does not exist at selection time,
target selection succeeds and still leaves it missing, and the subsequent
publish step fails (`symlinkFailed`) because symlink creation targets the
never-created directory — instead of the directory being created before any
write as the claim states. -/
theorem c9_abort_skips_target_creation :
    existsAt c5st (strToRPath "t".toList) = false ∧
    gtPath (get_target_directory c5st c9inp) = some (strToRPath "t".toList) ∧
    gtExists (get_target_directory c5st c9inp) (strToRPath "t".toList) = some false ∧
    run_compile_command c5st c9inp = .error .symlinkFailed := by decide

/-- Witness for the amended C7 theorem at a concrete filesystem. -/
theorem c7_missing_root_degrades_witness :
    load_or_create_config c7st = .ok (c7cfg, c7st) ∧
    existsAt c7st (strToRPath c7cfg.search_root) = false ∧
    find_candidate_directories c7st =
      .ok ([[PComp.cur], [PComp.parent]], [c7cfg.search_root], c7st) :=
  ⟨by decide, by decide, c7_missing_root_degrades c7st c7st c7cfg (by decide) (by decide)⟩

end ConvMd
